import Mathlib

/-!
GLO: UCSC chain parsing, block coordinates and overlap projection.

A shallow embedding of `chain.go` and `chain_interface.go`.

* `int64` is embedded as `Int64`: an integer in the range `[-2^63, 2^63)`, with
  `+` and `-` reduced modulo `2^64` (two's-complement wrap-around) and the
  comparisons of the integers; `string` as `String`.
* A pointer result that may be `nil` is an `Option`.
* `os.Exit(1)`, an index out of range and a failing `str2int64` all abort the
  run; every one of them is the result `none`.
* `str2int64` is called by `chain.go` but is defined elsewhere; the functions
  that call it take it as the argument `str2int64 : String → Option Int64`
  (`none` when the helper aborts).  `strings.ToLower` is passed the same way.
* `ChainLink.chain`, the pointer from a link back to its chain, is not
  represented: no embedded function reads through it.
-/

namespace GLO

/-! ## `int64` -/

/-- The value that two's-complement wrap-around to 64 bits makes of an integer. -/
def wrap64 (v : Int) : Int :=
  (v + 9223372036854775808) % 18446744073709551616 - 9223372036854775808

/-- Go `int64`: an integer in the 64-bit two's-complement range. -/
structure Int64 where
  val : Int
  inRange : -9223372036854775808 ≤ val ∧ val < 9223372036854775808
deriving DecidableEq

/-- Conversion of an integer to `int64`, with wrap-around. -/
def Int64.ofInt (v : Int) : Int64 :=
  ⟨wrap64 v, by unfold wrap64; omega⟩

instance : Zero Int64 := ⟨Int64.ofInt 0⟩

instance (priority := low) (n : Nat) : OfNat Int64 n := ⟨Int64.ofInt n⟩

/-- Go `a + b` on `int64`. -/
instance : Add Int64 := ⟨fun a b => Int64.ofInt (a.val + b.val)⟩

/-- Go `a - b` on `int64`. -/
instance : Sub Int64 := ⟨fun a b => Int64.ofInt (a.val - b.val)⟩

/-- Go `-a` on `int64`. -/
instance : Neg Int64 := ⟨fun a => Int64.ofInt (-a.val)⟩

/-- Go `a <= b` on `int64`. -/
instance : LE Int64 := ⟨fun a b => a.val ≤ b.val⟩

/-- Go `a < b` on `int64`. -/
instance : LT Int64 := ⟨fun a b => a.val < b.val⟩

instance (a b : Int64) : Decidable (a ≤ b) := inferInstanceAs (Decidable (a.val ≤ b.val))

instance (a b : Int64) : Decidable (a < b) := inferInstanceAs (Decidable (a.val < b.val))

/-- The larger of two `int64` values. -/
instance : Max Int64 := ⟨fun a b => if a ≤ b then b else a⟩

/-- The smaller of two `int64` values. -/
instance : Min Int64 := ⟨fun a b => if a ≤ b then a else b⟩

/-- Addition modulo `2^64` makes `int64` a commutative group. -/
instance : AddCommGroup Int64 where
  add_assoc a b c := by
    show Int64.ofInt ((a + b).val + c.val) = Int64.ofInt (a.val + (b + c).val)
    simp only [Int64.ofInt, Int64.mk.injEq]
    show wrap64 (wrap64 (a.val + b.val) + c.val) = wrap64 (a.val + wrap64 (b.val + c.val))
    simp only [wrap64]; omega
  zero_add a := by
    obtain ⟨v, hv⟩ := a
    show Int64.ofInt (wrap64 0 + v) = _
    simp only [Int64.ofInt, Int64.mk.injEq, wrap64]; omega
  add_zero a := by
    obtain ⟨v, hv⟩ := a
    show Int64.ofInt (v + wrap64 0) = _
    simp only [Int64.ofInt, Int64.mk.injEq, wrap64]; omega
  nsmul := nsmulRec
  zsmul := zsmulRec
  neg_add_cancel a := by
    show Int64.ofInt (wrap64 (-a.val) + a.val) = Int64.ofInt 0
    simp only [Int64.ofInt, Int64.mk.injEq, wrap64]; omega
  add_comm a b := by
    show Int64.ofInt (a.val + b.val) = Int64.ofInt (b.val + a.val)
    simp only [Int64.ofInt, Int64.mk.injEq, wrap64]; omega
  sub_eq_add_neg a b := by
    show Int64.ofInt (a.val - b.val) = Int64.ofInt (a.val + wrap64 (-b.val))
    simp only [Int64.ofInt, Int64.mk.injEq, wrap64]; omega

/-- An integer that an `int64` holds without wrap-around. -/
def fits64 (v : Int) : Prop :=
  -9223372036854775808 ≤ v ∧ v < 9223372036854775808

instance (v : Int) : Decidable (fits64 v) :=
  inferInstanceAs (Decidable (-9223372036854775808 ≤ v ∧ v < 9223372036854775808))

/-! ## Data model (`chain.go`) -/

/-- Represents a contig:start-end structure. -/
structure ChainInterval where
  Contig : String
  Start : Int64
  End : Int64
  Inverted : Bool
deriving DecidableEq

/-- Source: `func (ci ChainInterval) size() int64`. -/
def ChainInterval.size (ci : ChainInterval) : Int64 :=
  ci.End - ci.Start

/-- Source: `NewChainInterval`; `Inverted` keeps its zero value. -/
def NewChainInterval (contig : String) (start : Int64) (end_ : Int64) : ChainInterval :=
  { Contig := contig, Start := start, End := end_, Inverted := false }

/-- The source -> target mapping between two intervals. -/
structure ChainLink where
  reference : ChainInterval
  query : ChainInterval
  size : Int64
  dt : Int64
  dq : Int64
deriving DecidableEq

/-- A UCSC chain: the header fields and the mapping blocks. -/
structure Chain where
  score : Int64
  tName : String
  tSize : Int64
  tStrand : String
  tStart : Int64
  tEnd : Int64
  qName : String
  qSize : Int64
  qStrand : String
  qStart : Int64
  qEnd : Int64
  id : String
  links : List ChainLink
deriving DecidableEq

/-- The zero value of `Chain` (what `new(Chain)` gives). -/
def Chain.zero : Chain :=
  { score := 0, tName := "", tSize := 0, tStrand := "", tStart := 0, tEnd := 0,
    qName := "", qSize := 0, qStrand := "", qStart := 0, qEnd := 0, id := "",
    links := [] }

/-- Source: `func (link *ChainLink) GetOverlap(region *ChainInterval) *ChainInterval`. -/
def ChainLink.GetOverlap (link : ChainLink) (region : ChainInterval) : Option ChainInterval :=
  if region.Contig ≠ link.reference.Contig then
    none
  else
    let start_offset : Int64 :=
      if region.Start > link.reference.Start then region.Start - link.reference.Start else 0
    let end_offset : Int64 :=
      if region.End < link.reference.End then link.reference.End - region.End else 0
    some { Contig := link.query.Contig
           Start := link.query.Start + start_offset
           End := link.query.End - end_offset
           Inverted := link.query.Inverted }

/-- The call `link.GetOverlap(region)` as a step on the memory behind its two
pointers: the result, and the link and the region as the call leaves them.  The
body assigns only to its locals and to the fresh `overlap`; nothing is written
through `link` or `region`. -/
def ChainLink.GetOverlapCall (link : ChainLink) (region : ChainInterval) :
    Option ChainInterval × ChainLink × ChainInterval :=
  (link.GetOverlap region, link, region)

/-! ## The interval interface (`chain_interface.go`) -/

/-- The two bounds of `augmentedtree.Interval` that the overlap test reads; the
dimension is a `uint64`, embedded as `Nat`. -/
structure Interval where
  LowAtDimension : Nat → Int64
  HighAtDimension : Nat → Int64

/-- Source: `func (ci ChainInterval) LowAtDimension(dim uint64) int64`. -/
def ChainInterval.LowAtDimension (ci : ChainInterval) (_dim : Nat) : Int64 :=
  ci.Start

/-- Source: `func (ci ChainInterval) HighAtDimension(dim uint64) int64`. -/
def ChainInterval.HighAtDimension (ci : ChainInterval) (_dim : Nat) : Int64 :=
  ci.End

/-- A `ChainInterval` seen through the interface. -/
def ChainInterval.toInterval (ci : ChainInterval) : Interval :=
  { LowAtDimension := ci.LowAtDimension, HighAtDimension := ci.HighAtDimension }

/-- Source: `func (ci ChainInterval) OverlapsAtDimension(iv, dim) bool`. -/
def ChainInterval.OverlapsAtDimension (ci : ChainInterval) (iv : Interval) (dim : Nat) : Bool :=
  if iv.LowAtDimension dim ≤ ci.Start ∧ ci.End ≤ iv.HighAtDimension dim then
    true
  else if ci.Start ≤ iv.LowAtDimension dim ∧ iv.LowAtDimension dim ≤ ci.End then
    true
  else if ci.Start ≤ iv.HighAtDimension dim ∧ iv.HighAtDimension dim ≤ ci.End then
    true
  else
    false

/-- Source: `func (link *ChainLink) LowAtDimension(dim uint64) int64`. -/
def ChainLink.LowAtDimension (link : ChainLink) (dim : Nat) : Int64 :=
  link.reference.LowAtDimension dim

/-- Source: `func (link *ChainLink) HighAtDimension(dim uint64) int64`. -/
def ChainLink.HighAtDimension (link : ChainLink) (dim : Nat) : Int64 :=
  link.reference.HighAtDimension dim

/-- A `ChainLink` seen through the interface. -/
def ChainLink.toInterval (link : ChainLink) : Interval :=
  { LowAtDimension := link.LowAtDimension, HighAtDimension := link.HighAtDimension }

/-- Source: `func (link *ChainLink) OverlapsAtDimension(iv, dim) bool`. -/
def ChainLink.OverlapsAtDimension (link : ChainLink) (iv : Interval) (dim : Nat) : Bool :=
  link.reference.OverlapsAtDimension iv dim

/-! ## Library functions used by the parser -/

/-- Go `unicode.IsSpace`. -/
def isSpace (ch : Char) : Bool :=
  ch = '\t' || ch = '\n' || ch = Char.ofNat 0x0B || ch = Char.ofNat 0x0C || ch = '\r'
    || ch = ' ' || ch = Char.ofNat 0x85 || ch = Char.ofNat 0xA0 || ch = Char.ofNat 0x1680
    || (0x2000 ≤ ch.toNat && ch.toNat ≤ 0x200A) || ch = Char.ofNat 0x2028
    || ch = Char.ofNat 0x2029 || ch = Char.ofNat 0x202F || ch = Char.ofNat 0x205F
    || ch = Char.ofNat 0x3000

/-- Go `strings.TrimSpace`: leading and trailing white space removed. -/
def TrimSpace (s : String) : String :=
  ⟨((s.data.dropWhile isSpace).reverse.dropWhile isSpace).reverse⟩

/-- The pieces of a character list between the occurrences of `sep`. -/
def splitChars (sep : Char) : List Char → List (List Char)
  | [] => [[]]
  | ch :: rest =>
    if ch = sep then [] :: splitChars sep rest
    else
      match splitChars sep rest with
      | [] => [[ch]]
      | w :: ws => (ch :: w) :: ws

/-- Go `strings.Split(s, sep)` for a separator of one character. -/
def Split (s : String) (sep : Char) : List String :=
  (splitChars sep s.data).map String.mk

/-- The unread input of a `bufio.Reader`. -/
abbrev Reader := List Char

/-- Go `bufio.Reader.ReadString(delim)`: the text up to and including the first
`delim` and the rest of the input; when the input ends before a `delim`, what
was read and the error flag `true`. -/
def ReadString : Reader → Char → (List Char × Bool) × Reader
  | [], _ => (([], true), [])
  | ch :: rest, delim =>
    if ch = delim then (([ch], false), rest)
    else
      let r := ReadString rest delim
      ((ch :: r.1.1, r.1.2), r.2)

/-- Go `bufio.Reader.Peek(1)`: the error flag, `true` when no byte is left. -/
def PeekErr (r : Reader) : Bool :=
  r.isEmpty

/-! ## Header and block parsing (`chain.go`) -/

/-- Source: `func (c *Chain) FromString(s string)`.  An index past the end of
`cols` panics; `id` is assigned only when there are 13 columns. -/
def Chain.FromString (str2int64 : String → Option Int64) (ToLower : String → String)
    (c : Chain) (s : String) : Option Chain :=
  let cols := Split (TrimSpace s) ' '
  match cols[1]? >>= str2int64, cols[2]?, cols[3]? >>= str2int64, cols[4]?,
      cols[5]? >>= str2int64, cols[6]? >>= str2int64, cols[7]?,
      cols[8]? >>= str2int64, cols[9]?, cols[10]? >>= str2int64,
      cols[11]? >>= str2int64 with
  | some score, some tName, some tSize, some tStrand, some tStart, some tEnd, some qName,
      some qSize, some qStrand, some qStart, some qEnd =>
    some { score := score
           tName := ToLower tName
           tSize := tSize
           tStrand := tStrand
           tStart := tStart
           tEnd := tEnd
           qName := ToLower qName
           qSize := qSize
           qStrand := qStrand
           qStart := qStart
           qEnd := qEnd
           id := if cols.length = 13 then cols.getD 12 c.id else c.id
           links := c.links }
  | _, _, _, _, _, _, _, _, _, _, _ => none

/-- The variables that the `for len(cols) == 3` loop of `load_links` updates. -/
structure LoopState where
  cols : List String
  tFrom : Int64
  qFrom : Int64
  links : List ChainLink
  reader : Reader

/-- The loop `for len(cols) == 3 { ... }` of `load_links`.  Every iteration that
goes round again has consumed at least one byte, so `load_links` starts it with
one more unit of fuel than there are unread bytes. -/
def Chain.load_links_loop (str2int64 : String → Option Int64) (c : Chain) (inverted : Bool) :
    Nat → LoopState → Option LoopState
  | 0, st =>
    match st.cols with
    | [_, _, _] => none
    | _ => some st
  | fuel + 1, st =>
    match st.cols with
    | [c0, c1, c2] =>
      match str2int64 c0, str2int64 c1, str2int64 c2 with
      | some size, some dt, some dq =>
        let reference : ChainInterval :=
          { NewChainInterval c.tName st.tFrom (st.tFrom + size) with Inverted := inverted }
        let tFrom := st.tFrom + (size + dt)
        let query : ChainInterval :=
          if !inverted then
            { NewChainInterval c.qName st.qFrom (st.qFrom + size) with Inverted := inverted }
          else
            { NewChainInterval c.qName (st.qFrom - size - 1) st.qFrom with Inverted := inverted }
        let qFrom := if !inverted then st.qFrom + (size + dq) else st.qFrom - (size + dq)
        let link : ChainLink :=
          { reference := reference, query := query, size := size, dt := dt, dq := dq }
        let links := st.links ++ [link]
        if PeekErr st.reader then
          some { cols := st.cols, tFrom := tFrom, qFrom := qFrom, links := links,
                 reader := st.reader }
        else
          let rd := ReadString st.reader '\n'
          if rd.1.2 then none
          else
            Chain.load_links_loop str2int64 c inverted fuel
              { cols := Split (TrimSpace ⟨rd.1.1⟩) '\t', tFrom := tFrom, qFrom := qFrom,
                links := links, reader := rd.2 }
      | _, _, _ => none
    | _ => some st

/-- Source: `func (c *Chain) load_links(reader *bufio.Reader)`; the result is the
chain with the links appended and the reader after the lines consumed. -/
def Chain.load_links (str2int64 : String → Option Int64) (c : Chain) (reader : Reader) :
    Option (Chain × Reader) :=
  let inverted : Bool := decide (c.tStrand ≠ c.qStrand)
  let rd := ReadString reader '\n'
  if rd.1.2 then none
  else
    let cols := Split (TrimSpace ⟨rd.1.1⟩) '\t'
    let tFrom := c.tStart
    let qFrom := if inverted then c.qSize - c.qStart else c.qStart
    match Chain.load_links_loop str2int64 c inverted (rd.2.length + 1)
        { cols := cols, tFrom := tFrom, qFrom := qFrom, links := c.links, reader := rd.2 } with
    | none => none
    | some st =>
      match st.cols with
      | [c0] =>
        match str2int64 c0 with
        | some size =>
          let reference : ChainInterval :=
            { NewChainInterval c.tName st.tFrom (st.tFrom + size) with Inverted := inverted }
          let query : ChainInterval :=
            if !inverted then
              { NewChainInterval c.qName st.qFrom (st.qFrom + size) with Inverted := inverted }
            else
              { NewChainInterval c.qName (st.qFrom - size - 1) st.qFrom with Inverted := inverted }
          let link : ChainLink :=
            { reference := reference, query := query, size := size, dt := 0, dq := 0 }
          some ({ c with links := st.links ++ [link] }, st.reader)
        | none => none
      | _ => none

/-! ## Re-serialisation (`chain.go`) -/

/-- Go `fmt.Sprintf("%d", v)` for an `int64`: the decimal digits, after a minus
sign when `v` is negative. -/
def formatInt (v : Int64) : String :=
  match v.val with
  | Int.ofNat n => ⟨Nat.toDigits 10 n⟩
  | Int.negSucc n => ⟨'-' :: Nat.toDigits 10 (n + 1)⟩

/-- Source: `func (link *ChainLink) Line() string`. -/
def ChainLink.Line (link : ChainLink) : String :=
  if link.dq = 0 ∧ link.dt = 0 then
    formatInt link.size
  else
    formatInt link.size ++ " " ++ formatInt link.dt ++ " " ++ formatInt link.dq

/-- Source: `func (c *Chain) Header() string`. -/
def Chain.Header (c : Chain) : String :=
  "chain " ++ formatInt c.score ++ " " ++ c.tName ++ " " ++ formatInt c.tSize ++ " "
    ++ c.tStrand ++ " " ++ formatInt c.tStart ++ " " ++ formatInt c.tEnd ++ " " ++ c.qName
    ++ " " ++ formatInt c.qSize ++ " " ++ c.qStrand ++ " " ++ formatInt c.qStart ++ " "
    ++ formatInt c.qEnd ++ " " ++ c.id

/-! ## A decimal reading of `str2int64`, for the concrete runs -/

/-- The value of a run of decimal digits, most significant first. -/
def digitsValue : List Char → Nat → Option Nat
  | [], acc => some acc
  | ch :: rest, acc =>
    if '0' ≤ ch ∧ ch ≤ '9' then digitsValue rest (10 * acc + (ch.toNat - 48)) else none

/-- Modelled from the spec: `str2int64`, the helper that `chain.go` calls on every
numeric token and whose definition is not among the source files.  The spec
says only that numeric fields are integers and that a token that "fails integer
parsing" is an error; this reading takes a token of one or more decimal digits
with an optional sign, within the range of `int64`. -/
def str2int64 (s : String) : Option Int64 :=
  let inRange (v : Int) : Option Int64 :=
    if h : -9223372036854775808 ≤ v ∧ v < 9223372036854775808 then some ⟨v, h⟩ else none
  match s.data with
  | [] => none
  | '-' :: ds =>
    if ds.isEmpty then none else (digitsValue ds 0).bind fun n => inRange (-(n : Int))
  | '+' :: ds =>
    if ds.isEmpty then none else (digitsValue ds 0).bind fun n => inRange (n : Int)
  | ds => (digitsValue ds 0).bind fun n => inRange (n : Int)

/-- ASCII lower-casing, the part of `strings.ToLower` the concrete runs use. -/
def asciiToLower (s : String) : String :=
  ⟨s.data.map Char.toLower⟩

/-! ## The links of a chain as a function of its block numbers -/

/-- The link built for the block `b = (size, dt, dq)` at the running offsets
`tFrom` and `qFrom`. -/
def blockLink (c : Chain) (inverted : Bool) (tFrom qFrom : Int64) (b : Int64 × Int64 × Int64) :
    ChainLink :=
  { reference := { Contig := c.tName, Start := tFrom, End := tFrom + b.1, Inverted := inverted }
    query :=
      if inverted then
        { Contig := c.qName, Start := qFrom - b.1 - 1, End := qFrom, Inverted := inverted }
      else
        { Contig := c.qName, Start := qFrom, End := qFrom + b.1, Inverted := inverted }
    size := b.1
    dt := b.2.1
    dq := b.2.2 }

/-- The running query offset after the block `b`. -/
def nextQ (inverted : Bool) (qFrom : Int64) (b : Int64 × Int64 × Int64) : Int64 :=
  if inverted then qFrom - (b.1 + b.2.2) else qFrom + (b.1 + b.2.2)

/-- The links built for a list of blocks, from the running offsets onwards. -/
def walk (c : Chain) (inverted : Bool) : Int64 → Int64 → List (Int64 × Int64 × Int64) → List ChainLink
  | _, _, [] => []
  | tFrom, qFrom, b :: bs =>
    blockLink c inverted tFrom qFrom b ::
      walk c inverted (tFrom + (b.1 + b.2.1)) (nextQ inverted qFrom b) bs

/-- The running query offset with which `load_links` starts. -/
def Chain.qFrom0 (c : Chain) : Int64 :=
  if c.tStrand ≠ c.qStrand then c.qSize - c.qStart else c.qStart

/-- The links that a run of `load_links` appended, given the chain before (`c`)
and after (`c'`). -/
def appended (c c' : Chain) : List ChainLink :=
  c'.links.drop c.links.length

/-! ## Block lines as text -/

/-- A line of input: its body and the line terminator. -/
def lineText (body : List Char) : List Char :=
  body ++ ['\n']

/-- The text of consecutive lines, given their bodies. -/
def linesText : List (List Char) → List Char
  | [] => []
  | body :: rest => body ++ '\n' :: linesText rest

/-- The columns that `load_links` makes of a line it has read. -/
def lineCols (line : List Char) : List String :=
  Split (TrimSpace ⟨line⟩) '\t'

/-- The numbers of a three-token block line with the body `body`: `none` unless
the body is free of line terminators, the line has three columns and
`str2int64` reads each of them. -/
def parseBlock (str2int64 : String → Option Int64) (body : List Char) :
    Option (Int64 × Int64 × Int64) :=
  if '\n' ∈ body then none
  else
    match lineCols (lineText body) with
    | [c0, c1, c2] =>
      match str2int64 c0, str2int64 c1, str2int64 c2 with
      | some size, some dt, some dq => some (size, dt, dq)
      | _, _, _ => none
    | _ => none

/-- The number of a single-token (terminal) line with the body `body`. -/
def parseTerminal (str2int64 : String → Option Int64) (body : List Char) : Option Int64 :=
  if '\n' ∈ body then none
  else
    match lineCols (lineText body) with
    | [c0] => str2int64 c0
    | _ => none

/-- The running reference offset after the blocks `bs`. -/
def tAfter (t : Int64) : List (Int64 × Int64 × Int64) → Int64
  | [] => t
  | b :: bs => tAfter (t + (b.1 + b.2.1)) bs

/-- The running query offset after the blocks `bs`. -/
def qAfter (inverted : Bool) (q : Int64) : List (Int64 × Int64 × Int64) → Int64
  | [] => q
  | b :: bs => qAfter inverted (nextQ inverted q b) bs

/-- Reading the next line and entering the loop with its columns: the step with
which `load_links` starts and which the loop repeats after every block. -/
def readThenLoop (str2int64 : String → Option Int64) (c : Chain) (inverted : Bool) (fuel : Nat)
    (tFrom qFrom : Int64) (links : List ChainLink) (r : Reader) : Option LoopState :=
  let rd := ReadString r '\n'
  if rd.1.2 then none
  else
    Chain.load_links_loop str2int64 c inverted fuel
      { cols := Split (TrimSpace ⟨rd.1.1⟩) '\t', tFrom := tFrom, qFrom := qFrom,
        links := links, reader := rd.2 }

/-! ## Concrete inputs -/

/-- A header on the same strand: `chr1:500-700` against `chr2:300-500`. -/
def headerPlus : String :=
  "chain 100 chr1 1000000 + 500 700 chr2 2000000 + 300 500"

/-- The same header with the query on the opposite strand. -/
def headerMinus : String :=
  "chain 100 chr1 1000000 + 500 700 chr2 2000000 - 300 500"

/-- The tokens of `headerPlus` separated by tabs instead of spaces. -/
def headerTabs : String :=
  "chain\t100\tchr1\t1000000\t+\t500\t700\tchr2\t2000000\t+\t300\t500"

/-- The chain that `FromString` makes of `headerPlus`. -/
def chainPlus : Chain :=
  { score := 100, tName := "chr1", tSize := 1000000, tStrand := "+", tStart := 500,
    tEnd := 700, qName := "chr2", qSize := 2000000, qStrand := "+", qStart := 300,
    qEnd := 500, id := "", links := [] }

/-- The chain that `FromString` makes of `headerMinus`. -/
def chainMinus : Chain :=
  { chainPlus with qStrand := "-" }

/-- The block `chr1:500-700 <-> chr2:300-500`. -/
def linkPlus : ChainLink :=
  { reference := { Contig := "chr1", Start := 500, End := 700, Inverted := false }
    query := { Contig := "chr2", Start := 300, End := 500, Inverted := false }
    size := 200, dt := 0, dq := 0 }

/-- The first link of `chainPlus` for the block lines `100 10 5` and `90`. -/
def linkPlus1 : ChainLink :=
  { reference := { Contig := "chr1", Start := 500, End := 600, Inverted := false }
    query := { Contig := "chr2", Start := 300, End := 400, Inverted := false }
    size := 100, dt := 10, dq := 5 }

/-- The terminal link of `chainPlus` for the block lines `100 10 5` and `90`. -/
def linkPlus2 : ChainLink :=
  { reference := { Contig := "chr1", Start := 610, End := 700, Inverted := false }
    query := { Contig := "chr2", Start := 405, End := 495, Inverted := false }
    size := 90, dt := 0, dq := 0 }

/-- The only link of `chainPlus` for the single block line `100`. -/
def linkShort : ChainLink :=
  { reference := { Contig := "chr1", Start := 500, End := 600, Inverted := false }
    query := { Contig := "chr2", Start := 300, End := 400, Inverted := false }
    size := 100, dt := 0, dq := 0 }

/-- The first link of `chainMinus` for the block lines `100 10 5` and `90`. -/
def linkMinus1 : ChainLink :=
  { reference := { Contig := "chr1", Start := 500, End := 600, Inverted := true }
    query := { Contig := "chr2", Start := 1999599, End := 1999700, Inverted := true }
    size := 100, dt := 10, dq := 5 }

/-- The terminal link of `chainMinus` for the block lines `100 10 5` and `90`. -/
def linkMinus2 : ChainLink :=
  { reference := { Contig := "chr1", Start := 610, End := 700, Inverted := true }
    query := { Contig := "chr2", Start := 1999504, End := 1999595, Inverted := true }
    size := 90, dt := 0, dq := 0 }

/-- The block `chr1:-1-10 <-> chr2:0-11`. -/
def linkEdge : ChainLink :=
  { reference := { Contig := "chr1", Start := -1, End := 10, Inverted := false }
    query := { Contig := "chr2", Start := 0, End := 11, Inverted := false }
    size := 11, dt := 0, dq := 0 }

/-- A region at the largest `int64` coordinate, `2^63 - 1`. -/
def regionEdge : ChainInterval :=
  { Contig := "chr1", Start := 9223372036854775807, End := 9223372036854775807,
    Inverted := false }

/-- A block whose reference, `chr1:-1-(2^63-1)`, ends at the largest `int64`
coordinate, against the query `chr2:-20--11`. -/
def linkEdgeEnd : ChainLink :=
  { reference := { Contig := "chr1", Start := -1, End := 9223372036854775807,
                   Inverted := false }
    query := { Contig := "chr2", Start := -20, End := -11, Inverted := false }
    size := 9, dt := 0, dq := 0 }

/-- The region `chr1:-5--1`. -/
def regionBelow : ChainInterval :=
  { Contig := "chr1", Start := -5, End := -1, Inverted := false }

/-- The chain of `headerPlus` with `tStart` sixteen below `2^63`. -/
def chainHighT : Chain :=
  { chainPlus with tStart := 9223372036854775800 }

/-- The first link of `chainHighT` for the block lines `100 10 5` and `90`: the
end of its reference interval has wrapped around. -/
def linkHighT1 : ChainLink :=
  { reference := { Contig := "chr1", Start := 9223372036854775800,
                   End := -9223372036854775716, Inverted := false }
    query := { Contig := "chr2", Start := 300, End := 400, Inverted := false }
    size := 100, dt := 10, dq := 5 }

/-- The terminal link of `chainHighT` for the block lines `100 10 5` and `90`. -/
def linkHighT2 : ChainLink :=
  { reference := { Contig := "chr1", Start := -9223372036854775706,
                   End := -9223372036854775616, Inverted := false }
    query := { Contig := "chr2", Start := 405, End := 495, Inverted := false }
    size := 90, dt := 0, dq := 0 }

/-- The chain of `headerPlus` with `tStart = 0` and `qStart` sixteen below `2^63`. -/
def chainHighQ : Chain :=
  { chainPlus with tStart := 0, qStart := 9223372036854775800 }

/-- The link of `chainHighQ` for the single block line `10`: the end of its query
interval has wrapped around. -/
def linkHighQ : ChainLink :=
  { reference := { Contig := "chr1", Start := 0, End := 10, Inverted := false }
    query := { Contig := "chr2", Start := 9223372036854775800,
               End := -9223372036854775806, Inverted := false }
    size := 10, dt := 0, dq := 0 }

/-- The region `chr1:550-650`. -/
def regionInside : ChainInterval :=
  { Contig := "chr1", Start := 550, End := 650, Inverted := false }

/-! ## Lemmas on `int64` -/

theorem Int64.ext {a b : Int64} (h : a.val = b.val) : a = b := by
  cases a; cases b; simp only at h; subst h; rfl

theorem Int64.eq_iff (a b : Int64) : a = b ↔ a.val = b.val :=
  ⟨fun h => by rw [h], Int64.ext⟩

theorem Int64.val_add (a b : Int64) : (a + b).val = wrap64 (a.val + b.val) := rfl

theorem Int64.val_sub (a b : Int64) : (a - b).val = wrap64 (a.val - b.val) := rfl

theorem Int64.val_zero : (0 : Int64).val = 0 := rfl

theorem Int64.le_def (a b : Int64) : a ≤ b ↔ a.val ≤ b.val := Iff.rfl

theorem Int64.lt_def (a b : Int64) : a < b ↔ a.val < b.val := Iff.rfl

theorem Int64.max_def (a b : Int64) : max a b = if a ≤ b then b else a := rfl

theorem Int64.min_def (a b : Int64) : min a b = if a ≤ b then a else b := rfl

/-! ## Lemmas on the parser -/

theorem ReadString_length (d : Char) :
    ∀ r : Reader, (ReadString r d).1.2 = false → (ReadString r d).2.length < r.length := by
  intro r
  induction r with
  | nil => intro h; simp [ReadString] at h
  | cons ch rest ih =>
    intro h
    unfold ReadString at h ⊢
    split
    · simp
    · rename_i hne
      simp only [hne, if_false] at h
      have := ih h
      simp only [List.length_cons]
      omega

/-- One more unit of fuel than unread bytes is enough: with that much, the loop
gives the same result for every larger amount, so it never stops for lack of fuel. -/
theorem load_links_loop_fuel (f : String → Option Int64) (c : Chain) (inv : Bool) :
    ∀ (fuel : Nat) (st : LoopState), st.reader.length < fuel →
      Chain.load_links_loop f c inv (fuel + 1) st = Chain.load_links_loop f c inv fuel st := by
  intro fuel
  induction fuel with
  | zero => intro st h; exact absurd h (Nat.not_lt_zero _)
  | succ n ih =>
    intro st h
    rw [Chain.load_links_loop, Chain.load_links_loop]
    split
    · split
      · simp only
        split
        · rfl
        · split
          · rfl
          · rename_i herr
            apply ih
            have := ReadString_length '\n' st.reader (by simpa using herr)
            simp only
            omega
      · rfl
    · rfl

theorem walk_append (c : Chain) (inv : Bool) (bs tail : List (Int64 × Int64 × Int64)) :
    ∀ t q, ∃ t' q', walk c inv t q (bs ++ tail) = walk c inv t q bs ++ walk c inv t' q' tail := by
  induction bs with
  | nil => intro t q; exact ⟨t, q, rfl⟩
  | cons b bs ih =>
    intro t q
    obtain ⟨t', q', h⟩ := ih (t + (b.1 + b.2.1)) (nextQ inv q b)
    exact ⟨t', q', by simp [walk, h]⟩

theorem load_links_loop_walk (f : String → Option Int64) (c : Chain) (inv : Bool) :
    ∀ (fuel : Nat) (st st' : LoopState), Chain.load_links_loop f c inv fuel st = some st' →
      ∃ bs : List (Int64 × Int64 × Int64), ∀ tail,
        st'.links ++ walk c inv st'.tFrom st'.qFrom tail
          = st.links ++ walk c inv st.tFrom st.qFrom (bs ++ tail) := by
  intro fuel
  induction fuel with
  | zero =>
    intro st st' h
    unfold Chain.load_links_loop at h
    split at h
    · exact absurd h (by simp)
    · injection h with h; subst h; exact ⟨[], fun _ => rfl⟩
  | succ fuel ih =>
    intro st st' h
    unfold Chain.load_links_loop at h
    split at h
    · split at h
      · rename_i size dt dq _ _ _
        simp only at h
        split at h
        · injection h with h; subst h
          refine ⟨[(size, dt, dq)], fun tail => ?_⟩
          cases inv <;> simp [walk, blockLink, nextQ, NewChainInterval]
        · split at h
          · exact absurd h (by simp)
          · obtain ⟨bs, hbs⟩ := ih _ _ h
            refine ⟨(size, dt, dq) :: bs, fun tail => ?_⟩
            rw [hbs tail]
            cases inv <;> simp [walk, blockLink, nextQ, NewChainInterval]
      · exact absurd h (by simp)
    · injection h with h; subst h; exact ⟨[], fun _ => rfl⟩

/-- What `load_links` returns: the chain it was given, with the links of some
blocks and of a terminal block without gaps appended. -/
theorem load_links_walk (f : String → Option Int64) (c c' : Chain) (r r' : Reader)
    (h : Chain.load_links f c r = some (c', r')) :
    ∃ (bs : List (Int64 × Int64 × Int64)) (last : Int64),
      c' = { c with
        links := c.links ++
          walk c (decide (c.tStrand ≠ c.qStrand)) c.tStart c.qFrom0 (bs ++ [(last, 0, 0)]) } := by
  unfold Chain.load_links at h
  simp only at h
  split at h
  · exact absurd h (by simp)
  · split at h
    · exact absurd h (by simp)
    · rename_i st hloop
      split at h
      · split at h
        · rename_i size _
          obtain ⟨bs, hbs⟩ := load_links_loop_walk f c _ _ _ _ hloop
          refine ⟨bs, size, ?_⟩
          simp only [Option.some.injEq, Prod.mk.injEq] at h
          rw [← h.1]
          congr 1
          have h2 := hbs [(size, 0, 0)]
          simp only at h2
          have hq : (if decide (c.tStrand ≠ c.qStrand) = true then c.qSize - c.qStart
              else c.qStart) = c.qFrom0 := by
            unfold Chain.qFrom0
            by_cases hs : c.tStrand = c.qStrand <;> simp [hs]
          rw [hq] at h2
          rw [← h2]
          cases hinv : decide (c.tStrand ≠ c.qStrand) <;>
            simp [walk, blockLink, NewChainInterval]
        · exact absurd h (by simp)
      · exact absurd h (by simp)

theorem appended_eq (c c' : Chain) (new : List ChainLink)
    (h : c' = { c with links := c.links ++ new }) : appended c c' = new := by
  subst h
  simp [appended]

theorem mem_walk (c : Chain) (inv : Bool) (l : ChainLink) :
    ∀ (bs : List (Int64 × Int64 × Int64)) (t q : Int64), l ∈ walk c inv t q bs →
      ∃ t' q' b, l = blockLink c inv t' q' b := by
  intro bs
  induction bs with
  | nil => intro t q h; simp [walk] at h
  | cons b bs ih =>
    intro t q h
    simp only [walk, List.mem_cons] at h
    rcases h with h | h
    · exact ⟨t, q, b, h⟩
    · exact ih _ _ h

/-- The link at position `i`: built at the offsets advanced by the blocks before it. -/
theorem walk_getElem? (c : Chain) (inv : Bool) :
    ∀ (bs : List (Int64 × Int64 × Int64)) (t q : Int64) (i : Nat) (a : ChainLink),
      (walk c inv t q bs)[i]? = some a →
      ∃ b, a = blockLink c inv
        (t + (((walk c inv t q bs).take i).map fun l => l.size + l.dt).sum)
        (if inv then q - (((walk c inv t q bs).take i).map fun l => l.size + l.dq).sum
          else q + (((walk c inv t q bs).take i).map fun l => l.size + l.dq).sum) b := by
  intro bs
  induction bs with
  | nil => intro t q i a h; simp [walk] at h
  | cons b bs ih =>
    intro t q i a h
    cases i with
    | zero =>
      simp only [walk, List.getElem?_cons_zero, Option.some.injEq] at h
      refine ⟨b, ?_⟩
      cases inv <;> simp [← h]
    | succ i =>
      simp only [walk, List.getElem?_cons_succ] at h
      obtain ⟨x, hx⟩ := ih _ _ i a h
      refine ⟨x, ?_⟩
      rw [hx]
      cases inv <;>
        simp [walk, blockLink, nextQ, add_assoc, sub_sub]

/-- Two consecutive links: the second is built at the offsets of the first
advanced by its block. -/
theorem walk_consecutive (c : Chain) (inv : Bool) :
    ∀ (bs : List (Int64 × Int64 × Int64)) (t q : Int64) (i : Nat) (a b : ChainLink),
      (walk c inv t q bs)[i]? = some a → (walk c inv t q bs)[i + 1]? = some b →
      ∃ t' q' x y, a = blockLink c inv t' q' x ∧
        b = blockLink c inv (t' + (x.1 + x.2.1)) (nextQ inv q' x) y := by
  intro bs
  induction bs with
  | nil => intro t q i a b h; simp [walk] at h
  | cons x bs ih =>
    intro t q i a b ha hb
    cases i with
    | zero =>
      cases bs with
      | nil => simp [walk] at hb
      | cons y bs =>
        simp only [walk, List.getElem?_cons_zero, Option.some.injEq] at ha
        simp only [walk, List.getElem?_cons_succ, List.getElem?_cons_zero, zero_add,
          Option.some.injEq] at hb
        exact ⟨t, q, x, y, ha.symm, hb.symm⟩
    | succ i =>
      simp only [walk, List.getElem?_cons_succ] at ha hb
      exact ih _ _ i a b ha hb

/-- The running reference offset after all the blocks. -/
theorem walk_reference_span (c : Chain) (inv : Bool) :
    ∀ (bs : List (Int64 × Int64 × Int64)) (x : Int64 × Int64 × Int64) (t q : Int64),
      ∃ last, (walk c inv t q (bs ++ [x])).getLast? = some last ∧
        t + ((walk c inv t q (bs ++ [x])).map fun l => l.size).sum
          + ((walk c inv t q (bs ++ [x])).map fun l => l.dt).sum
          = last.reference.End + last.dt ∧ last.dt = x.2.1 ∧ last.dq = x.2.2 := by
  intro bs
  induction bs with
  | nil =>
    intro x t q
    refine ⟨blockLink c inv t q x, by simp [walk], ?_, rfl, rfl⟩
    simp [walk, blockLink]
  | cons b bs ih =>
    intro x t q
    obtain ⟨last, h1, h2, h3⟩ := ih x (t + (b.1 + b.2.1)) (nextQ inv q b)
    refine ⟨last, ?_, ?_, h3⟩
    · rw [List.cons_append]
      simp only [walk]
      rw [List.getLast?_cons, h1]
      rfl
    · rw [List.cons_append]
      simp only [walk, List.map_cons, List.sum_cons, blockLink]
      rw [← h2]; abel

theorem FromString_links (f : String → Option Int64) (lower : String → String) (c0 c : Chain)
    (s : String) (h : Chain.FromString f lower c0 s = some c) : c.links = c0.links := by
  unfold Chain.FromString at h
  simp only at h
  split at h
  · injection h with h; subst h; rfl
  · exact absurd h (by simp)

/-- On a matching contig `GetOverlap` returns an interval, with the two offsets
as the source computes them. -/
theorem GetOverlap_some (link : ChainLink) (region : ChainInterval)
    (h : region.Contig = link.reference.Contig) :
    link.GetOverlap region =
      some { Contig := link.query.Contig
             Start := link.query.Start +
               (if region.Start > link.reference.Start then
                 region.Start - link.reference.Start else 0)
             End := link.query.End -
               (if region.End < link.reference.End then
                 link.reference.End - region.End else 0)
             Inverted := link.query.Inverted } := by
  simp [ChainLink.GetOverlap, h]

theorem ReadString_line (body rest : List Char) (h : '\n' ∉ body) :
    ReadString (body ++ '\n' :: rest) '\n' = ((body ++ ['\n'], false), rest) := by
  induction body with
  | nil => simp [ReadString]
  | cons ch body ih =>
    have hne : ch ≠ '\n' := fun e => h (by simp [e])
    have hb : '\n' ∉ body := fun e => h (by simp [e])
    simp [ReadString, hne, ih hb]

theorem linesText_length (lines : List (List Char)) : lines.length ≤ (linesText lines).length := by
  induction lines with
  | nil => simp
  | cons b ls ih => simp only [linesText, List.length_cons, List.length_append]; omega

theorem walk_append_after (c : Chain) (inv : Bool) (bs tail : List (Int64 × Int64 × Int64)) :
    ∀ t q, walk c inv t q (bs ++ tail)
      = walk c inv t q bs ++ walk c inv (tAfter t bs) (qAfter inv q bs) tail := by
  induction bs with
  | nil => intro t q; rfl
  | cons b bs ih => intro t q; simp [walk, tAfter, qAfter, ih]

theorem walk_map (c : Chain) (inv : Bool) (bs : List (Int64 × Int64 × Int64)) :
    ∀ t q, (walk c inv t q bs).map (fun l => (l.size, l.dt, l.dq)) = bs := by
  induction bs with
  | nil => intro t q; rfl
  | cons b bs ih => intro t q; simp [walk, blockLink, ih]

/-- One round of the loop on a block line that is followed by more input. -/
theorem load_links_loop_block (f : String → Option Int64) (c : Chain) (inv : Bool) (n : Nat)
    (st : LoopState) (c0 c1 c2 : String) (b : Int64 × Int64 × Int64)
    (hcols : st.cols = [c0, c1, c2])
    (h0 : f c0 = some b.1) (h1 : f c1 = some b.2.1) (h2 : f c2 = some b.2.2)
    (hr : st.reader ≠ []) :
    Chain.load_links_loop f c inv (n + 1) st
      = readThenLoop f c inv n (st.tFrom + (b.1 + b.2.1)) (nextQ inv st.qFrom b)
          (st.links ++ [blockLink c inv st.tFrom st.qFrom b]) st.reader := by
  rw [Chain.load_links_loop]
  have hp : PeekErr st.reader = false := by
    cases hrd : st.reader with
    | nil => exact absurd hrd hr
    | cons a l => rfl
  simp only [hcols, h0, h1, h2, hp, readThenLoop]
  cases inv <;> simp [blockLink, nextQ, NewChainInterval]


theorem parseBlock_some (f : String → Option Int64) (body : List Char) (b : Int64 × Int64 × Int64)
    (h : parseBlock f body = some b) :
    '\n' ∉ body ∧ ∃ c0 c1 c2, lineCols (lineText body) = [c0, c1, c2] ∧
      f c0 = some b.1 ∧ f c1 = some b.2.1 ∧ f c2 = some b.2.2 := by
  unfold parseBlock at h
  split at h
  · exact absurd h (by simp)
  · rename_i hn
    refine ⟨hn, ?_⟩
    split at h
    · rename_i c0 c1 c2 hc
      split at h
      · rename_i size dt dq e0 e1 e2
        injection h with h
        subst h
        exact ⟨c0, c1, c2, hc, e0, e1, e2⟩
      · exact absurd h (by simp)
    · exact absurd h (by simp)

theorem parseTerminal_some (f : String → Option Int64) (body : List Char) (size : Int64)
    (h : parseTerminal f body = some size) :
    '\n' ∉ body ∧ ∃ c0, lineCols (lineText body) = [c0] ∧ f c0 = some size := by
  unfold parseTerminal at h
  split at h
  · exact absurd h (by simp)
  · rename_i hn
    refine ⟨hn, ?_⟩
    split at h
    · rename_i c0 hc
      exact ⟨c0, hc, h⟩
    · exact absurd h (by simp)

/-- Reading through block lines that are followed by more input: the loop comes
back to its reading step with the offsets advanced and the links appended. -/
theorem readThenLoop_blocks (f : String → Option Int64) (c : Chain) (inv : Bool) :
    ∀ (lines : List (List Char)) (bs : List (Int64 × Int64 × Int64)),
      lines.map (parseBlock f) = bs.map some →
      ∀ (fuel : Nat) (t q : Int64) (links : List ChainLink) (rest : Reader),
        rest ≠ [] → lines.length ≤ fuel →
        readThenLoop f c inv fuel t q links (linesText lines ++ rest)
          = readThenLoop f c inv (fuel - lines.length) (tAfter t bs) (qAfter inv q bs)
              (links ++ walk c inv t q bs) rest := by
  intro lines
  induction lines with
  | nil =>
    intro bs hbs fuel t q links rest _ _
    cases bs with
    | nil => simp [linesText, tAfter, qAfter, walk]
    | cons b bs => simp at hbs
  | cons body lines ih =>
    intro bs hbs fuel t q links rest hrest hfuel
    cases bs with
    | nil => simp at hbs
    | cons b bs =>
      simp only [List.map_cons, List.cons.injEq] at hbs
      obtain ⟨hn, c0, c1, c2, hc, e0, e1, e2⟩ := parseBlock_some f body b hbs.1
      cases fuel with
      | zero => simp at hfuel
      | succ n =>
        have hread : ReadString (linesText (body :: lines) ++ rest) '\n'
            = ((body ++ ['\n'], false), linesText lines ++ rest) := by
          simp only [linesText, List.append_assoc, List.cons_append]
          exact ReadString_line body _ hn
        have hne : linesText lines ++ rest ≠ [] := by
          intro e
          exact hrest (List.append_eq_nil.mp e).2
        rw [readThenLoop]
        simp only [hread]
        rw [load_links_loop_block f c inv n _ c0 c1 c2 b hc e0 e1 e2 hne]
        simp only
        rw [ih bs hbs.2 n _ _ _ rest hrest (by simpa using hfuel)]
        simp [tAfter, qAfter, walk, List.append_assoc]

/-- The loop is not entered, whatever the fuel, when the columns are not three. -/
theorem load_links_loop_exit (f : String → Option Int64) (c : Chain) (inv : Bool) (fuel : Nat)
    (st : LoopState) (h : st.cols.length ≠ 3) :
    Chain.load_links_loop f c inv fuel st = some st := by
  cases fuel with
  | zero =>
    rw [Chain.load_links_loop]
    split
    · rename_i e; simp [e] at h
    · rfl
  | succ n =>
    rw [Chain.load_links_loop]
    split
    · rename_i e; simp [e] at h
    · rfl

/-- Reading a terminal line ends the loop at once, whatever the fuel. -/
theorem readThenLoop_terminal (f : String → Option Int64) (c : Chain) (inv : Bool) (fuel : Nat)
    (t q : Int64) (links : List ChainLink) (body rest : List Char) (c0 : String)
    (hn : '\n' ∉ body) (hc : lineCols (lineText body) = [c0]) :
    readThenLoop f c inv fuel t q links (lineText body ++ rest)
      = some { cols := [c0], tFrom := t, qFrom := q, links := links, reader := rest } := by
  have hread : ReadString (lineText body ++ rest) '\n' = ((body ++ ['\n'], false), rest) := by
    simp only [lineText, List.append_assoc, List.singleton_append]
    exact ReadString_line body _ hn
  have hc' : Split (TrimSpace ⟨body ++ ['\n']⟩) '\t' = [c0] := hc
  rw [readThenLoop]
  simp only [hread, hc']
  rw [load_links_loop_exit f c inv fuel _ (by simp)]
  simp


theorem qFrom0_eq (c : Chain) :
    (if decide (c.tStrand ≠ c.qStrand) = true then c.qSize - c.qStart else c.qStart)
      = c.qFrom0 := by
  unfold Chain.qFrom0
  by_cases hs : c.tStrand = c.qStrand <;> simp [hs]

/-- `load_links` succeeds when its loop ends on a single parsable column. -/
theorem load_links_of_readThenLoop (f : String → Option Int64) (c : Chain) (r : Reader)
    (st : LoopState) (c0 : String) (size : Int64)
    (h : readThenLoop f c (decide (c.tStrand ≠ c.qStrand)) ((ReadString r '\n').2.length + 1)
      c.tStart c.qFrom0 c.links r = some st)
    (hc : st.cols = [c0]) (hs : f c0 = some size) :
    Chain.load_links f c r
      = some ({ c with
          links := st.links ++
            [blockLink c (decide (c.tStrand ≠ c.qStrand)) st.tFrom st.qFrom (size, 0, 0)] },
        st.reader) := by
  unfold readThenLoop at h
  unfold Chain.load_links
  simp only [qFrom0_eq] at h ⊢
  split
  · rename_i e; simp [e] at h
  · rename_i e
    simp only [e, if_false] at h
    simp only [Bool.false_eq_true, if_false] at h
    rw [h]
    simp only [hc, hs]
    cases hinv : decide (c.tStrand ≠ c.qStrand) <;> simp [blockLink, NewChainInterval]

/-- `load_links` fails when its loop fails or ends on columns that are not one. -/
theorem load_links_none_of_readThenLoop (f : String → Option Int64) (c : Chain) (r : Reader)
    (h : ∀ st, readThenLoop f c (decide (c.tStrand ≠ c.qStrand))
      ((ReadString r '\n').2.length + 1) c.tStart c.qFrom0 c.links r = some st →
      st.cols.length ≠ 1) :
    Chain.load_links f c r = none := by
  unfold readThenLoop at h
  unfold Chain.load_links
  simp only [qFrom0_eq] at h ⊢
  split
  · rfl
  · rename_i e
    simp only [e, if_false] at h
    split
    · rfl
    · rename_i st hst
      have := h st hst
      split
      · rename_i c0 hc; simp [hc] at this
      · rfl


/-- The fuel that `load_links` gives its loop covers the block lines ahead. -/
theorem load_links_fuel_lines (f : String → Option Int64) (lines : List (List Char))
    (bs : List (Int64 × Int64 × Int64)) (rest : Reader)
    (hlines : lines.map (parseBlock f) = bs.map some) :
    lines.length ≤ (ReadString (linesText lines ++ rest) '\n').2.length + 1 := by
  cases lines with
  | nil => simp
  | cons body ls =>
    cases bs with
    | nil => simp at hlines
    | cons b bs =>
      simp only [List.map_cons, List.cons.injEq] at hlines
      obtain ⟨hn, _⟩ := parseBlock_some f body b hlines.1
      have hread : ReadString (linesText (body :: ls) ++ rest) '\n'
          = ((body ++ ['\n'], false), linesText ls ++ rest) := by
        simp only [linesText, List.append_assoc, List.cons_append]
        exact ReadString_line body _ hn
      rw [hread]
      have := linesText_length ls
      simp only [List.length_cons, List.length_append]
      omega

/-- The run of `load_links` on block lines followed by a terminal line: the links
of the blocks and of the terminal block are appended, and the reader is left at
the text after the terminal line. -/
theorem load_links_lines_ok (f : String → Option Int64) (c : Chain) (lines : List (List Char))
    (bs : List (Int64 × Int64 × Int64)) (tbody : List Char) (size : Int64) (rest : Reader)
    (hlines : lines.map (parseBlock f) = bs.map some)
    (hterm : parseTerminal f tbody = some size) :
    Chain.load_links f c (linesText lines ++ (lineText tbody ++ rest))
      = some ({ c with
          links := c.links ++
            walk c (decide (c.tStrand ≠ c.qStrand)) c.tStart c.qFrom0 (bs ++ [(size, 0, 0)]) },
        rest) := by
  obtain ⟨hn, c0, hc, hs⟩ := parseTerminal_some f tbody size hterm
  have hne : lineText tbody ++ rest ≠ [] := by simp [lineText]
  have hfuel := load_links_fuel_lines f lines bs (lineText tbody ++ rest) hlines
  have hrun := readThenLoop_blocks f c (decide (c.tStrand ≠ c.qStrand)) lines bs hlines _
    c.tStart c.qFrom0 c.links (lineText tbody ++ rest) hne hfuel
  rw [readThenLoop_terminal f c _ _ _ _ _ tbody rest c0 hn hc] at hrun
  rw [load_links_of_readThenLoop f c _ _ c0 size hrun rfl hs]
  simp [walk_append_after, walk, List.append_assoc]

/-- Three-column lines followed by the end of the input, or by a line whose
columns are neither three nor one: the loop fails or ends on columns that are
not one. -/
theorem readThenLoop_not_terminal (f : String → Option Int64) (c : Chain) (inv : Bool) :
    ∀ (lines : List (List Char)),
      (∀ l ∈ lines, '\n' ∉ l ∧ (lineCols (lineText l)).length = 3) →
      ∀ (fuel : Nat) (t q : Int64) (links : List ChainLink) (tail : Reader),
        ((tail = [] ∧ lines ≠ []) ∨
          ∃ bad rest, tail = lineText bad ++ rest ∧ '\n' ∉ bad ∧
            (lineCols (lineText bad)).length ≠ 3 ∧ (lineCols (lineText bad)).length ≠ 1) →
        ∀ st, readThenLoop f c inv fuel t q links (linesText lines ++ tail) = some st →
          st.cols.length ≠ 1 := by
  intro lines
  induction lines with
  | nil =>
    intro _ fuel t q links tail htail st h
    rcases htail with ⟨_, hne⟩ | ⟨bad, rest, rfl, hn, h3, h1⟩
    · exact absurd rfl hne
    · have hread : ReadString (lineText bad ++ rest) '\n' = ((bad ++ ['\n'], false), rest) := by
        simp only [lineText, List.append_assoc, List.singleton_append]
        exact ReadString_line bad _ hn
      simp only [linesText, List.nil_append, readThenLoop, hread] at h
      rw [load_links_loop_exit f c inv fuel _ h3] at h
      simp only [Bool.false_eq_true, if_false, Option.some.injEq] at h
      rw [← h]
      exact h1
  | cons body ls ih =>
    intro hall fuel t q links tail htail st h
    obtain ⟨hn, h3⟩ := hall body (by simp)
    have hread : ReadString (linesText (body :: ls) ++ tail) '\n'
        = ((body ++ ['\n'], false), linesText ls ++ tail) := by
      simp only [linesText, List.append_assoc, List.cons_append]
      exact ReadString_line body _ hn
    obtain ⟨c0, c1, c2, hc⟩ : ∃ c0 c1 c2, Split (TrimSpace ⟨body ++ ['\n']⟩) '\t' = [c0, c1, c2] := by
      have h3' : (Split (TrimSpace ⟨body ++ ['\n']⟩) '\t').length = 3 := h3
      match hs : Split (TrimSpace ⟨body ++ ['\n']⟩) '\t', h3' with
      | [c0, c1, c2], _ => exact ⟨c0, c1, c2, rfl⟩
    simp only [readThenLoop, hread, hc, Bool.false_eq_true, if_false] at h
    cases fuel with
    | zero =>
      rw [Chain.load_links_loop] at h
      simp at h
    | succ n =>
      rw [Chain.load_links_loop] at h
      simp only at h
      split at h
      · split at h
        · simp only [Option.some.injEq] at h
          rw [← h]
          simp
        · rename_i hpeek
          have hne : linesText ls ++ tail ≠ [] := by
            intro e
            simp [e, PeekErr] at hpeek
          refine ih (fun l hl => hall l (by simp [hl])) n _ _ _ tail ?_ st h
          rcases htail with ⟨ht, _⟩ | hbad
          · left
            refine ⟨ht, ?_⟩
            intro e
            simp [e, ht, linesText] at hne
          · exact Or.inr hbad
      · exact absurd h (by simp)

/-! ## Claims -/

/-- C1, on the input that breaks it: on the header `headerMinus` (query on the
opposite strand) and the block lines `100 10 5` and `90`, `load_links` returns
two links; each reference interval has the size of its block, but each query
interval is one longer (101 for the block of 100, 91 for the block of 90). -/
theorem load_links_inverted_query_size :
    Chain.FromString str2int64 asciiToLower Chain.zero headerMinus = some chainMinus ∧
    Chain.load_links str2int64 chainMinus "100\t10\t5\n90\n".data
      = some ({ chainMinus with links := [linkMinus1, linkMinus2] }, []) ∧
    linkMinus1.size = 100 ∧ linkMinus1.reference.size = 100 ∧ linkMinus1.query.size = 101 ∧
    linkMinus2.size = 90 ∧ linkMinus2.reference.size = 90 ∧ linkMinus2.query.size = 91 := by
  decide

/-- C2, refuted as stated: `chr1:0-5` and the interval `[5, 10)` only touch, the
half-open test `ci.Start < iv.High && iv.Low < ci.End` is false for them, and
`OverlapsAtDimension` returns true. -/
theorem OverlapsAtDimension_touching :
    ChainInterval.OverlapsAtDimension
        { Contig := "chr1", Start := 0, End := 5, Inverted := false }
        { LowAtDimension := fun _ => 5, HighAtDimension := fun _ => 10 } 1 = true ∧
      ¬ ((0 : Int64) < 10 ∧ (5 : Int64) < 5) := by
  decide

/-- C2, amended: for intervals with `Start <= End`, `OverlapsAtDimension` returns
true if and only if the half-open test `ci.Start < iv.High && iv.Low < ci.End`
holds or the two ranges touch at an endpoint (`ci.End == iv.Low` or
`iv.High == ci.Start`). -/
theorem OverlapsAtDimension_iff_halfopen_or_touching (ci : ChainInterval) (iv : Interval)
    (dim : Nat) (hci : ci.Start ≤ ci.End)
    (hiv : iv.LowAtDimension dim ≤ iv.HighAtDimension dim) :
    ci.OverlapsAtDimension iv dim = true ↔
      ((ci.Start < iv.HighAtDimension dim ∧ iv.LowAtDimension dim < ci.End) ∨
        ci.End = iv.LowAtDimension dim ∨ iv.HighAtDimension dim = ci.Start) := by
  unfold ChainInterval.OverlapsAtDimension
  simp only [Int64.le_def, Int64.lt_def, Int64.eq_iff] at hci hiv ⊢
  constructor
  · intro h
    split at h
    · omega
    · split at h
      · omega
      · split at h
        · omega
        · exact absurd h (by simp)
  · intro h
    split
    · rfl
    · split
      · rfl
      · split
        · rfl
        · omega

theorem OverlapsAtDimension_iff_halfopen_or_touching_witness :
    ((0 : Int64) ≤ 5 ∧ (5 : Int64) ≤ 10) ∧
    (ChainInterval.OverlapsAtDimension
        { Contig := "chr1", Start := 0, End := 5, Inverted := false }
        { LowAtDimension := fun _ => 5, HighAtDimension := fun _ => 10 } 0 = true ↔
      (((0 : Int64) < 10 ∧ (5 : Int64) < 5) ∨ (5 : Int64) = 5 ∨ (10 : Int64) = 0)) :=
  ⟨by decide,
    OverlapsAtDimension_iff_halfopen_or_touching
      { Contig := "chr1", Start := 0, End := 5, Inverted := false }
      { LowAtDimension := fun _ => 5, HighAtDimension := fun _ => 10 } 0
      (by decide) (by decide)⟩

/-- C3, refuted as stated: (a) for the block `chr1:-1-10 <-> chr2:0-11` and a
region that starts at `2^63 - 1`, the difference
`region.Start - link.reference.Start` is `2^63` and wraps around to `-2^63`;
`GetOverlap` returns the start `-2^63`, where
`link.query.Start + max(0, region.Start - link.reference.Start)` is `0` in `int64`
arithmetic and `2^63` over the integers; (b) likewise at the other end, for a
reference that ends at `2^63 - 1`, the query `chr2:-20--11` and a region that
ends at `-1`: `GetOverlap` returns the end `2^63 - 11`, where
`link.query.End - max(0, link.reference.End - region.End)` is `-11` in `int64`
arithmetic and `-11 - 2^63` over the integers. -/
theorem GetOverlap_offset_wraps :
    (regionEdge.Contig = linkEdge.reference.Contig ∧
      linkEdge.GetOverlap regionEdge
        = some { Contig := "chr2", Start := -9223372036854775808, End := 11,
                 Inverted := false } ∧
      linkEdge.query.Start + max 0 (regionEdge.Start - linkEdge.reference.Start) = 0 ∧
      linkEdge.query.Start.val + max 0 (regionEdge.Start.val - linkEdge.reference.Start.val)
        = 9223372036854775808) ∧
    (regionBelow.Contig = linkEdgeEnd.reference.Contig ∧
      linkEdgeEnd.GetOverlap regionBelow
        = some { Contig := "chr2", Start := -20, End := 9223372036854775797,
                 Inverted := false } ∧
      linkEdgeEnd.query.End - max 0 (linkEdgeEnd.reference.End - regionBelow.End) = -11 ∧
      linkEdgeEnd.query.End.val - max 0 (linkEdgeEnd.reference.End.val - regionBelow.End.val)
        = -9223372036854775819) := by
  decide

/-- C3, amended: for a region on the contig of `link.reference` such that the
differences `region.Start - link.reference.Start` and
`link.reference.End - region.End` do not overflow `int64`, `GetOverlap` returns
`(link.query.Contig, link.query.Start + startOffset, link.query.End - endOffset,
link.query.Inverted)`, the sum and the difference in `int64` arithmetic, with
`startOffset = max(0, region.Start - link.reference.Start)` and
`endOffset = max(0, link.reference.End - region.End)`; the call leaves the link
and the region as they were. -/
theorem GetOverlap_same_contig (link : ChainLink) (region : ChainInterval)
    (h : region.Contig = link.reference.Contig)
    (hs : fits64 (region.Start.val - link.reference.Start.val))
    (he : fits64 (link.reference.End.val - region.End.val)) :
    link.GetOverlapCall region =
      (some { Contig := link.query.Contig
              Start := link.query.Start + max 0 (region.Start - link.reference.Start)
              End := link.query.End - max 0 (link.reference.End - region.End)
              Inverted := link.query.Inverted },
        link, region) := by
  have h1 : (if region.Start > link.reference.Start then region.Start - link.reference.Start
      else 0) = max 0 (region.Start - link.reference.Start) := by
    unfold fits64 at hs
    rw [Int64.max_def]
    apply Int64.ext
    split <;> split <;>
      simp only [Int64.le_def, Int64.lt_def, gt_iff_lt, Int64.val_sub, Int64.val_zero,
        wrap64] at * <;> omega
  have h2 : (if region.End < link.reference.End then link.reference.End - region.End
      else 0) = max 0 (link.reference.End - region.End) := by
    unfold fits64 at he
    rw [Int64.max_def]
    apply Int64.ext
    split <;> split <;>
      simp only [Int64.le_def, Int64.lt_def, Int64.val_sub, Int64.val_zero, wrap64] at * <;>
      omega
  unfold ChainLink.GetOverlapCall
  rw [GetOverlap_some link region h, h1, h2]

theorem GetOverlap_same_contig_witness :
    regionInside.Contig = linkPlus.reference.Contig ∧
    fits64 (regionInside.Start.val - linkPlus.reference.Start.val) ∧
    fits64 (linkPlus.reference.End.val - regionInside.End.val) ∧
    linkPlus.GetOverlapCall regionInside =
      (some { Contig := "chr2", Start := 300 + max 0 (550 - 500), End := 500 - max 0 (700 - 650),
              Inverted := false },
        linkPlus, regionInside) :=
  ⟨by decide, by decide, by decide,
    GetOverlap_same_contig linkPlus regionInside (by decide) (by decide) (by decide)⟩

/-- C4: for a link that `load_links` appended to a chain with `tStrand == qStrand`
and a region on the reference contig that lies inside the block, `GetOverlap`
returns the region shifted by `d = link.query.Start - link.reference.Start`, on
the contig `qName` and not inverted. -/
theorem GetOverlap_translation (f : String → Option Int64) (c c' : Chain) (r r' : Reader)
    (link : ChainLink) (region : ChainInterval)
    (hs : c.tStrand = c.qStrand)
    (hl : Chain.load_links f c r = some (c', r'))
    (hm : link ∈ appended c c')
    (hc : region.Contig = link.reference.Contig)
    (h1 : link.reference.Start ≤ region.Start)
    (_h2 : region.Start ≤ region.End)
    (h3 : region.End ≤ link.reference.End) :
    link.GetOverlap region =
      some { Contig := c.qName
             Start := region.Start + (link.query.Start - link.reference.Start)
             End := region.End + (link.query.Start - link.reference.Start)
             Inverted := false } := by
  obtain ⟨bs, last, hc'⟩ := load_links_walk f c c' r r' hl
  rw [appended_eq c c' _ hc'] at hm
  have hinv : decide (c.tStrand ≠ c.qStrand) = false := by simp [hs]
  rw [hinv] at hm
  obtain ⟨t', q', b, rfl⟩ := mem_walk c false link _ _ _ hm
  rw [GetOverlap_some _ _ hc]
  simp only [blockLink] at h1 h3 ⊢
  simp only [Bool.false_eq_true, if_false, Option.some.injEq, ChainInterval.mk.injEq, true_and,
    and_true]
  constructor
  · split
    · abel
    · rename_i hgt
      have hs' : region.Start = t' :=
        Int64.ext (by simp only [Int64.le_def, Int64.lt_def, gt_iff_lt] at h1 hgt; omega)
      rw [hs']; abel
  · split
    · abel
    · rename_i hlt
      have he' : region.End = t' + b.1 :=
        Int64.ext (by simp only [Int64.le_def, Int64.lt_def] at h3 hlt; omega)
      rw [he']; abel

theorem GetOverlap_translation_witness :
    Chain.FromString str2int64 asciiToLower Chain.zero headerPlus = some chainPlus ∧
    chainPlus.tStrand = chainPlus.qStrand ∧
    Chain.load_links str2int64 chainPlus "200\n".data
      = some ({ chainPlus with links := [linkPlus] }, []) ∧
    linkPlus ∈ appended chainPlus { chainPlus with links := [linkPlus] } ∧
    regionInside.Contig = linkPlus.reference.Contig ∧
    linkPlus.reference.Start ≤ regionInside.Start ∧
    regionInside.Start ≤ regionInside.End ∧
    regionInside.End ≤ linkPlus.reference.End ∧
    linkPlus.GetOverlap regionInside =
      some { Contig := "chr2", Start := 350, End := 450, Inverted := false } :=
  ⟨by decide, by decide, by decide, by decide, by decide, by decide, by decide, by decide,
    (GetOverlap_translation str2int64 chainPlus { chainPlus with links := [linkPlus] }
      "200\n".data [] linkPlus regionInside (by decide) (by decide) (by decide) (by decide)
      (by decide) (by decide) (by decide)).trans (by decide)⟩

/-- C5: for a chain with `tStrand != qStrand`, the link that `load_links` appends
at position `i` (the terminal link included, at the last position) has the query
interval `[q_i - size_i - 1, q_i)` on the contig `qName` with `Inverted = true`,
where `q_i = qSize - qStart - sum over j < i of (size_j + dq_j)`. -/
theorem load_links_inverted_query (f : String → Option Int64) (c c' : Chain) (r r' : Reader)
    (i : Nat) (link : ChainLink)
    (hs : c.tStrand ≠ c.qStrand)
    (hl : Chain.load_links f c r = some (c', r'))
    (hi : (appended c c')[i]? = some link) :
    link.query =
      { Contig := c.qName
        Start := c.qSize - c.qStart
            - (((appended c c').take i).map fun l => l.size + l.dq).sum - link.size - 1
        End := c.qSize - c.qStart - (((appended c c').take i).map fun l => l.size + l.dq).sum
        Inverted := true } := by
  obtain ⟨bs, last, hc'⟩ := load_links_walk f c c' r r' hl
  rw [appended_eq c c' _ hc'] at hi ⊢
  have hinv : decide (c.tStrand ≠ c.qStrand) = true := by simp [hs]
  have hq : c.qFrom0 = c.qSize - c.qStart := by simp [Chain.qFrom0, hs]
  rw [hinv, hq] at hi ⊢
  obtain ⟨b, hb⟩ := walk_getElem? c true _ _ _ i link hi
  rw [hb]
  simp [blockLink]

theorem load_links_inverted_query_witness :
    chainMinus.tStrand ≠ chainMinus.qStrand ∧
    Chain.load_links str2int64 chainMinus "100\t10\t5\n90\n".data
      = some ({ chainMinus with links := [linkMinus1, linkMinus2] }, []) ∧
    (appended chainMinus { chainMinus with links := [linkMinus1, linkMinus2] })[0]?
      = some linkMinus1 ∧
    chainMinus.qSize - chainMinus.qStart = 1999700 ∧
    linkMinus1.query =
      { Contig := "chr2", Start := 1999599, End := 1999700, Inverted := true } :=
  ⟨by decide, by decide, by decide, by decide,
    (load_links_inverted_query str2int64 chainMinus
      { chainMinus with links := [linkMinus1, linkMinus2] } "100\t10\t5\n90\n".data [] 0
      linkMinus1 (by decide) (by decide) (by decide)).trans (by decide)⟩

/-- C6: for a chain with `tStrand == qStrand`, the first link that `load_links`
appends has `query.Start == qStart`, and for every two consecutive appended links
(the pair ending in the terminal link included)
`links[i+1].query.Start == links[i].query.End + links[i].dq`. -/
theorem load_links_query_consecutive (f : String → Option Int64) (c c' : Chain) (r r' : Reader)
    (hs : c.tStrand = c.qStrand)
    (hl : Chain.load_links f c r = some (c', r')) :
    (∃ first, (appended c c')[0]? = some first ∧ first.query.Start = c.qStart) ∧
    ∀ (i : Nat) (a b : ChainLink), (appended c c')[i]? = some a →
      (appended c c')[i + 1]? = some b → b.query.Start = a.query.End + a.dq := by
  obtain ⟨bs, last, hc'⟩ := load_links_walk f c c' r r' hl
  rw [appended_eq c c' _ hc']
  have hinv : decide (c.tStrand ≠ c.qStrand) = false := by simp [hs]
  have hq : c.qFrom0 = c.qStart := by simp [Chain.qFrom0, hs]
  rw [hinv, hq]
  constructor
  · cases bs with
    | nil => exact ⟨blockLink c false c.tStart c.qStart (last, 0, 0), rfl, rfl⟩
    | cons b bs =>
      exact ⟨blockLink c false c.tStart c.qStart b, by simp [walk], rfl⟩
  · intro i a b ha hb
    obtain ⟨t', q', x, y, rfl, rfl⟩ := walk_consecutive c false _ _ _ i a b ha hb
    simp [blockLink, nextQ, add_assoc]

theorem load_links_query_consecutive_witness :
    chainPlus.tStrand = chainPlus.qStrand ∧
    (∃ c' r', Chain.load_links str2int64 chainPlus "100\t10\t5\n90\n".data = some (c', r') ∧
      (∃ first, (appended chainPlus c')[0]? = some first ∧ first.query.Start = 300) ∧
      ∀ (i : Nat) (a b : ChainLink), (appended chainPlus c')[i]? = some a →
        (appended chainPlus c')[i + 1]? = some b → b.query.Start = a.query.End + a.dq) :=
  ⟨by decide, _, _, (by decide :
      Chain.load_links str2int64 chainPlus "100\t10\t5\n90\n".data
        = some ({ chainPlus with links := [linkPlus1, linkPlus2] }, [])),
    load_links_query_consecutive str2int64 chainPlus _ "100\t10\t5\n90\n".data [] (by decide)
      (by decide)⟩

/-- C7, refuted as stated: the header `headerPlus` declares `tEnd = 700`; followed
by the single block line `100`, `load_links` succeeds, and `tStart` plus the link
sizes plus the `dt` gaps is 600. -/
theorem load_links_span_not_tEnd :
    Chain.FromString str2int64 asciiToLower Chain.zero headerPlus = some chainPlus ∧
    ∃ c' r', Chain.load_links str2int64 chainPlus "100\n".data = some (c', r') ∧
      c'.tStart + (c'.links.map fun l => l.size).sum + (c'.links.map fun l => l.dt).sum = 600 ∧
      c'.tEnd = 700 :=
  ⟨by decide, _, _, (by decide :
      Chain.load_links str2int64 chainPlus "100\n".data
        = some ({ chainPlus with links := [linkShort] }, [])),
    by decide, by decide⟩

/-- C7, amended: for a chain produced by `FromString` on a header line (into a
chain without links) followed by `load_links` on its block lines, `tStart` plus
the sum of all link sizes plus the sum of all `dt` gaps equals the
`reference.End` of the last link; `load_links` leaves `tStart` and `tEnd` as the
header gave them and compares neither with the blocks. -/
theorem load_links_reference_span (f : String → Option Int64) (lower : String → String)
    (c0 c c' : Chain) (s : String) (r r' : Reader)
    (h0 : c0.links = [])
    (hf : Chain.FromString f lower c0 s = some c)
    (hl : Chain.load_links f c r = some (c', r')) :
    ∃ last, c'.links.getLast? = some last ∧
      c'.tStart + (c'.links.map fun l => l.size).sum + (c'.links.map fun l => l.dt).sum
        = last.reference.End ∧
      c'.tStart = c.tStart ∧ c'.tEnd = c.tEnd := by
  obtain ⟨bs, x, hc'⟩ := load_links_walk f c c' r r' hl
  have hlinks : c.links = [] := (FromString_links f lower c0 c s hf).trans h0
  obtain ⟨last, g1, g2, g3, _⟩ :=
    walk_reference_span c (decide (c.tStrand ≠ c.qStrand)) bs (x, 0, 0) c.tStart c.qFrom0
  refine ⟨last, ?_, ?_, ?_, ?_⟩
  · rw [hc']; simpa [hlinks] using g1
  · rw [hc']
    simp only [hlinks, List.nil_append]
    rw [g2, g3]; simp
  · rw [hc']
  · rw [hc']

theorem load_links_reference_span_witness :
    Chain.zero.links = [] ∧
    Chain.FromString str2int64 asciiToLower Chain.zero headerPlus = some chainPlus ∧
    Chain.load_links str2int64 chainPlus "100\t10\t5\n90\n".data
      = some ({ chainPlus with links := [linkPlus1, linkPlus2] }, []) ∧
    ∃ last,
      ({ chainPlus with links := [linkPlus1, linkPlus2] } : Chain).links.getLast? = some last ∧
      last.reference.End = 700 :=
  ⟨by decide, by decide, by decide,
    (load_links_reference_span str2int64 asciiToLower Chain.zero chainPlus _ headerPlus
      "100\t10\t5\n90\n".data [] (by decide) (by decide) (by decide)).imp
      fun _ h => ⟨h.1, h.2.1.symm.trans (by decide)⟩⟩

/-- C8: `GetOverlap` returns "no overlap" (`nil`) if and only if
`region.Contig != link.reference.Contig`, whatever the coordinates; on a matching
contig it returns an interval for every choice of coordinates (zero-size regions
and regions strictly inside the block included). -/
theorem GetOverlap_none_iff (link : ChainLink) (region : ChainInterval) :
    (link.GetOverlap region = none ↔ region.Contig ≠ link.reference.Contig) ∧
    (link.GetOverlap region).isSome = decide (region.Contig = link.reference.Contig) := by
  unfold ChainLink.GetOverlap
  by_cases h : region.Contig = link.reference.Contig <;> simp [h]

/-- C9: for a region whose contig, start and end are those of `link.reference`,
`GetOverlap` returns `link.query`, equal in every field (contig, start, end,
inverted); the inversion flags play no part. -/
theorem GetOverlap_reference (link : ChainLink) (region : ChainInterval)
    (hc : region.Contig = link.reference.Contig)
    (hs : region.Start = link.reference.Start)
    (he : region.End = link.reference.End) :
    link.GetOverlap region = some link.query := by
  rw [GetOverlap_some link region hc, hs, he]
  simp

theorem GetOverlap_reference_witness :
    linkPlus.reference.Inverted = false ∧ linkPlus.query.Inverted = false ∧
    linkPlus.reference.Contig = linkPlus.reference.Contig ∧
    linkPlus.reference.Start = linkPlus.reference.Start ∧
    linkPlus.reference.End = linkPlus.reference.End ∧
    linkPlus.GetOverlap linkPlus.reference
      = some { Contig := "chr2", Start := 300, End := 500, Inverted := false } :=
  ⟨by decide, by decide, rfl, rfl, rfl,
    GetOverlap_reference linkPlus linkPlus.reference rfl rfl rfl⟩

/-- C10, refuted as stated: with `tStart = 9223372036854775800` and the block
lines `100 10 5` and `90` (sizes positive, `dt` non-negative) the running
reference offset wraps around: the first link starts at `9223372036854775800`
and the second at `-9223372036854775706`, which is smaller. -/
theorem load_links_reference_wraps :
    Chain.FromString str2int64 asciiToLower Chain.zero
        "chain 100 chr1 1000000 + 9223372036854775800 700 chr2 2000000 + 300 500"
      = some chainHighT ∧
    Chain.load_links str2int64 chainHighT "100\t10\t5\n90\n".data
      = some ({ chainHighT with links := [linkHighT1, linkHighT2] }, []) ∧
    (0 < linkHighT1.size ∧ 0 ≤ linkHighT1.dt) ∧ (0 < linkHighT2.size ∧ 0 ≤ linkHighT2.dt) ∧
    ¬ linkHighT1.reference.Start < linkHighT2.reference.Start := by
  decide

/-- C10, amended: when every appended link has a positive size and a non-negative
`dt` (the numbers of its block line) and, for every link but the last,
`reference.Start + size + dt` stays below `2^63` (the running reference offset
does not overflow `int64`), the links that `load_links` appends are in
increasing order of `reference.Start`:
`links[i].reference.Start < links[i+1].reference.Start` for every consecutive
pair, with or without strand inversion. -/
theorem load_links_reference_increasing (f : String → Option Int64) (c c' : Chain)
    (r r' : Reader)
    (hl : Chain.load_links f c r = some (c', r'))
    (hpos : ∀ l ∈ appended c c', 0 < l.size ∧ 0 ≤ l.dt)
    (hfit : ∀ l ∈ (appended c c').dropLast,
      l.reference.Start.val + l.size.val + l.dt.val < 9223372036854775808) :
    ∀ (i : Nat) (a b : ChainLink), (appended c c')[i]? = some a →
      (appended c c')[i + 1]? = some b → a.reference.Start < b.reference.Start := by
  intro i a b ha hb
  have hmem : a ∈ appended c c' := List.getElem?_mem ha
  obtain ⟨h1, h2⟩ := hpos a hmem
  have hlt : i + 1 < (appended c c').length := by
    by_contra hge
    rw [List.getElem?_eq_none (by omega)] at hb
    exact absurd hb (by simp)
  have hdrop : a ∈ (appended c c').dropLast := by
    apply List.getElem?_mem (n := i)
    rw [List.dropLast_eq_take, List.getElem?_take_of_lt (by omega)]
    exact ha
  have h3 := hfit a hdrop
  obtain ⟨bs, last, hc'⟩ := load_links_walk f c c' r r' hl
  rw [appended_eq c c' _ hc'] at ha hb
  obtain ⟨t', q', x, y, rfl, rfl⟩ := walk_consecutive c _ _ _ _ i a b ha hb
  have r1 := t'.inRange
  have r2 := x.1.inRange
  have r3 := x.2.1.inRange
  simp only [blockLink, Int64.lt_def, Int64.le_def, Int64.val_zero, Int64.val_add,
    wrap64] at h1 h2 h3 ⊢
  omega

theorem load_links_reference_increasing_witness :
    Chain.load_links str2int64 chainMinus "100\t10\t5\n90\n".data
      = some ({ chainMinus with links := [linkMinus1, linkMinus2] }, []) ∧
    (∀ l ∈ appended chainMinus { chainMinus with links := [linkMinus1, linkMinus2] },
      0 < l.size ∧ 0 ≤ l.dt) ∧
    (∀ l ∈ (appended chainMinus
        { chainMinus with links := [linkMinus1, linkMinus2] }).dropLast,
      l.reference.Start.val + l.size.val + l.dt.val < 9223372036854775808) ∧
    (appended chainMinus { chainMinus with links := [linkMinus1, linkMinus2] })[0]?
      = some linkMinus1 ∧
    (appended chainMinus { chainMinus with links := [linkMinus1, linkMinus2] })[0 + 1]?
      = some linkMinus2 ∧
    linkMinus1.reference.Start < linkMinus2.reference.Start :=
  ⟨by decide, by decide, by decide, by decide, by decide,
    load_links_reference_increasing str2int64 chainMinus
      { chainMinus with links := [linkMinus1, linkMinus2] } "100\t10\t5\n90\n".data []
      (by decide) (by decide) (by decide) 0 linkMinus1 linkMinus2 (by decide) (by decide)⟩

/-- C11: on an input of `k >= 0` three-token block lines followed by a
single-token line (and any further text), `load_links` on a chain with no links
returns a chain with exactly `k + 1` links in line order: link `i < k` carries
the `size`, `dt` and `dq` of line `i`, the last link carries the size of the
terminal line with `dt == dq == 0`, and the reader is left at the text after the
terminal line. -/
theorem load_links_appends_lines (f : String → Option Int64) (c : Chain)
    (lines : List (List Char)) (bs : List (Int64 × Int64 × Int64)) (tbody : List Char) (size : Int64)
    (rest : Reader)
    (hfresh : c.links = [])
    (hlines : lines.map (parseBlock f) = bs.map some)
    (hterm : parseTerminal f tbody = some size) :
    ∃ c', Chain.load_links f c (linesText lines ++ (lineText tbody ++ rest)) = some (c', rest) ∧
      c'.links.length = lines.length + 1 ∧
      c'.links.map (fun l => (l.size, l.dt, l.dq)) = bs ++ [(size, 0, 0)] := by
  refine ⟨_, load_links_lines_ok f c lines bs tbody size rest hlines hterm, ?_, ?_⟩
  · have hlen : lines.length = bs.length := by
      have := congrArg List.length hlines
      simpa using this
    have hmap := congrArg List.length
      (walk_map c (decide (c.tStrand ≠ c.qStrand)) (bs ++ [(size, 0, 0)]) c.tStart c.qFrom0)
    simp only [List.length_map, List.length_append, List.length_singleton] at hmap
    simp only [hfresh, List.nil_append, hmap, hlen]
  · simp only [hfresh, List.nil_append]
    exact walk_map c _ _ _ _

theorem load_links_appends_lines_witness :
    chainPlus.links = [] ∧
    ["100\t10\t5".data].map (parseBlock str2int64) = [((100 : Int64), (10 : Int64), (5 : Int64))].map some ∧
    parseTerminal str2int64 "90".data = some 90 ∧
    linesText ["100\t10\t5".data] ++ (lineText "90".data ++ "chain 7\n".data)
      = "100\t10\t5\n90\nchain 7\n".data ∧
    ∃ c', Chain.load_links str2int64 chainPlus
        (linesText ["100\t10\t5".data] ++ (lineText "90".data ++ "chain 7\n".data))
        = some (c', "chain 7\n".data) ∧
      c'.links.length = 1 + 1 ∧
      c'.links.map (fun l => (l.size, l.dt, l.dq)) = [(100, 10, 5)] ++ [(90, 0, 0)] :=
  ⟨by decide, by decide, by decide, by decide,
    load_links_appends_lines str2int64 chainPlus ["100\t10\t5".data] [(100, 10, 5)] "90".data 90
      "chain 7\n".data (by decide) (by decide) (by decide)⟩

/-- C12, on the input that breaks it: `load_links` accepts the block line
`100<TAB>10<TAB>5` (columns are split at tabs) and `Line()` of its link is
`100 10 5`, with spaces, so the line is not reproduced; the terminal line `90`
is.  With the decimal reading of `str2int64`, the same line written with spaces
is not accepted. -/
theorem Line_not_original :
    Chain.load_links str2int64 chainPlus "100\t10\t5\n90\n".data
      = some ({ chainPlus with links := [linkPlus1, linkPlus2] }, []) ∧
    linkPlus1.Line = "100 10 5" ∧ linkPlus1.Line ≠ "100\t10\t5" ∧
    linkPlus2.Line = "90" ∧
    Chain.load_links str2int64 chainPlus "100 10 5\n90\n".data = none := by
  decide

/-- C13, on the input that breaks it: for the 12-token header `headerPlus` (no
id) `Header()` returns the line followed by a space, the separator before the
empty id; with an id present (`headerPlus` followed by ` 7`) it returns the line
itself.  Trimmed and split at spaces, the output for `headerPlus` has the
columns of the input. -/
theorem Header_trailing_space :
    Chain.FromString str2int64 asciiToLower Chain.zero headerPlus = some chainPlus ∧
    chainPlus.Header = headerPlus ++ " " ∧ chainPlus.Header ≠ headerPlus ∧
    Chain.FromString str2int64 asciiToLower Chain.zero (headerPlus ++ " 7")
      = some { chainPlus with id := "7" } ∧
    ({ chainPlus with id := "7" } : Chain).Header = headerPlus ++ " 7" ∧
    Split (TrimSpace chainPlus.Header) ' ' = Split (TrimSpace headerPlus) ' ' := by
  decide

/-- C14: `Line()` returns the decimal rendering of `size` alone when `dt == 0` and
`dq == 0`, and otherwise `"<size> <dt> <dq>"`, the three decimal renderings with
one space between them, also when exactly one of the two gaps is zero. -/
theorem Line_cases (link : ChainLink) :
    (link.dt = 0 ∧ link.dq = 0 → link.Line = formatInt link.size) ∧
    (link.dt ≠ 0 ∨ link.dq ≠ 0 →
      link.Line = formatInt link.size ++ " " ++ formatInt link.dt ++ " " ++ formatInt link.dq) := by
  unfold ChainLink.Line
  constructor
  · rintro ⟨h1, h2⟩
    simp [h1, h2]
  · intro h
    have : ¬ (link.dq = 0 ∧ link.dt = 0) := by
      rintro ⟨h2, h1⟩
      rcases h with h | h
      · exact h h1
      · exact h h2
    simp only [this, if_false]

theorem Line_cases_witness :
    linkPlus2.Line = "90" ∧ linkPlus1.Line = "100 10 5" ∧
    ({ linkPlus1 with dq := 0 } : ChainLink).Line = "100 10 0" ∧
    ({ linkPlus1 with dt := 0 } : ChainLink).Line = "100 0 5" :=
  ⟨((Line_cases linkPlus2).1 ⟨rfl, rfl⟩).trans (by decide),
    ((Line_cases linkPlus1).2 (Or.inl (by decide))).trans (by decide),
    ((Line_cases { linkPlus1 with dq := 0 }).2 (Or.inl (by decide))).trans (by decide),
    ((Line_cases { linkPlus1 with dt := 0 }).2 (Or.inr (by decide))).trans (by decide)⟩

/-- C15: for a header line whose columns (the trimmed line split at single
spaces) are a marker, eleven tokens and at most one more, with parsable numbers,
`FromString` sets `score, tName, tSize, tStrand, tStart, tEnd, qName, qSize,
qStrand, qStart, qEnd` from tokens 1..11 in that order, the two names through
`strings.ToLower` and the strands verbatim; `id` is token 12 when there are 13
tokens and keeps its value (empty on a fresh chain) when there are 12; the
links are those the chain had. -/
theorem FromString_fields (f : String → Option Int64) (lower : String → String) (c0 : Chain)
    (s t0 t1 t2 t3 t4 t5 t6 t7 t8 t9 t10 t11 : String) (ids : List String)
    (score tSize tStart tEnd qSize qStart qEnd : Int64)
    (hcols : Split (TrimSpace s) ' '
      = t0 :: t1 :: t2 :: t3 :: t4 :: t5 :: t6 :: t7 :: t8 :: t9 :: t10 :: t11 :: ids)
    (hids : ids.length ≤ 1)
    (h1 : f t1 = some score) (h3 : f t3 = some tSize) (h5 : f t5 = some tStart)
    (h6 : f t6 = some tEnd) (h8 : f t8 = some qSize) (h10 : f t10 = some qStart)
    (h11 : f t11 = some qEnd) :
    Chain.FromString f lower c0 s =
      some { score := score, tName := lower t2, tSize := tSize, tStrand := t4,
             tStart := tStart, tEnd := tEnd, qName := lower t7, qSize := qSize,
             qStrand := t9, qStart := qStart, qEnd := qEnd, id := ids.headD c0.id,
             links := c0.links } := by
  unfold Chain.FromString
  simp only [hcols]
  match ids, hids with
  | [], _ => simp [h1, h3, h5, h6, h8, h10, h11]
  | [x], _ => simp [h1, h3, h5, h6, h8, h10, h11]

theorem FromString_fields_witness :
    Chain.FromString str2int64 asciiToLower Chain.zero
        "chain 100 ChrX 1000000 + 500 700 chr2 2000000 - 300 500\n"
      = some { score := 100, tName := "chrx", tSize := 1000000, tStrand := "+", tStart := 500,
               tEnd := 700, qName := "chr2", qSize := 2000000, qStrand := "-", qStart := 300,
               qEnd := 500, id := "", links := [] } ∧
    Chain.FromString str2int64 asciiToLower Chain.zero
        "chain 100 ChrX 1000000 + 500 700 chr2 2000000 - 300 500 17\n"
      = some { score := 100, tName := "chrx", tSize := 1000000, tStrand := "+", tStart := 500,
               tEnd := 700, qName := "chr2", qSize := 2000000, qStrand := "-", qStart := 300,
               qEnd := 500, id := "17", links := [] } :=
  ⟨(FromString_fields str2int64 asciiToLower Chain.zero _ "chain" "100" "ChrX" "1000000" "+"
      "500" "700" "chr2" "2000000" "-" "300" "500" [] 100 1000000 500 700 2000000 300 500
      (by decide) (by decide) (by decide) (by decide) (by decide) (by decide) (by decide)
      (by decide) (by decide)).trans (by decide),
    (FromString_fields str2int64 asciiToLower Chain.zero _ "chain" "100" "ChrX" "1000000" "+"
      "500" "700" "chr2" "2000000" "-" "300" "500" ["17"] 100 1000000 500 700 2000000 300 500
      (by decide) (by decide) (by decide) (by decide) (by decide) (by decide) (by decide)
      (by decide) (by decide)).trans (by decide)⟩

/-- C16, refuted as stated, in both directions: (a) a header with 13 tokens after
the marker, all numbers parsable, does not fail; (b) `headerTabs`, whose 11
tokens after the marker are those of `headerPlus` separated by tabs, fails:
the line is split at spaces only, so it is a single column and `cols[1]` is out
of range, while `headerPlus` itself is accepted. -/
theorem FromString_token_count :
    ((Split (TrimSpace (headerPlus ++ " 7 extra")) ' ').length = 14 ∧
      (Chain.FromString str2int64 asciiToLower Chain.zero (headerPlus ++ " 7 extra")).isSome
        = true) ∧
    (headerTabs.data.map (fun ch => if ch = '\t' then ' ' else ch) = headerPlus.data ∧
      Chain.FromString str2int64 asciiToLower Chain.zero headerPlus = some chainPlus ∧
      (Split (TrimSpace headerTabs) ' ').length = 1 ∧
      Chain.FromString str2int64 asciiToLower Chain.zero headerTabs = none) := by
  decide

/-- C16, amended: `FromString` fails if and only if the trimmed header line, split
at single spaces, has fewer than 12 columns (fewer than 11 tokens after the
marker) or one of the numeric columns 1, 3, 5, 6, 8, 10, 11 (`score, tSize,
tStart, tEnd, qSize, qStart, qEnd`) is not parsable. -/
theorem FromString_none_iff (f : String → Option Int64) (lower : String → String) (c : Chain)
    (s : String) :
    Chain.FromString f lower c s = none ↔
      (Split (TrimSpace s) ' ').length < 12 ∨
      ∃ i ∈ [1, 3, 5, 6, 8, 10, 11], ∃ tok,
        (Split (TrimSpace s) ' ')[i]? = some tok ∧ f tok = none := by
  unfold Chain.FromString
  simp only
  generalize Split (TrimSpace s) ' ' = cols
  by_cases hlen : cols.length < 12
  · simp only [hlen, true_or, iff_true]
    have h11 : cols[11]? = none := List.getElem?_eq_none (by omega)
    split
    · rename_i e11
      simp [h11] at e11
    · rfl
  · have ex : ∀ i, i < 12 → ∃ t, cols[i]? = some t := fun i hi =>
      ⟨cols[i], List.getElem?_eq_getElem (by omega)⟩
    obtain ⟨t1, c1⟩ := ex 1 (by omega)
    obtain ⟨t2, c2⟩ := ex 2 (by omega)
    obtain ⟨t3, c3⟩ := ex 3 (by omega)
    obtain ⟨t4, c4⟩ := ex 4 (by omega)
    obtain ⟨t5, c5⟩ := ex 5 (by omega)
    obtain ⟨t6, c6⟩ := ex 6 (by omega)
    obtain ⟨t7, c7⟩ := ex 7 (by omega)
    obtain ⟨t8, c8⟩ := ex 8 (by omega)
    obtain ⟨t9, c9⟩ := ex 9 (by omega)
    obtain ⟨t10, c10⟩ := ex 10 (by omega)
    obtain ⟨t11, c11⟩ := ex 11 (by omega)
    simp only [hlen, false_or, c1, c2, c3, c4, c5, c6, c7, c8, c9, c10, c11]
    split
    · rename_i e1 _ e3 _ e5 e6 _ e8 _ e10 e11
      simp at e1 e3 e5 e6 e8 e10 e11
      simp [c1, c3, c5, c6, c8, c10, c11, e1, e3, e5, e6, e8, e10, e11]
    · rename_i hno
      simp only [true_iff]
      by_contra hn
      simp only [List.mem_cons, List.mem_singleton, not_exists, not_and] at hn
      have val : ∀ o : Option Int64, o ≠ none → ∃ v, o = some v := by
        intro o ho
        cases o with
        | none => exact absurd rfl ho
        | some v => exact ⟨v, rfl⟩
      have g1 := hn 1 (by simp) t1 c1
      have g3 := hn 3 (by simp) t3 c3
      have g5 := hn 5 (by simp) t5 c5
      have g6 := hn 6 (by simp) t6 c6
      have g8 := hn 8 (by simp) t8 c8
      have g10 := hn 10 (by simp) t10 c10
      have g11 := hn 11 (by simp) t11 c11
      obtain ⟨v1, e1⟩ := val (f t1) g1
      obtain ⟨v3, e3⟩ := val (f t3) g3
      obtain ⟨v5, e5⟩ := val (f t5) g5
      obtain ⟨v6, e6⟩ := val (f t6) g6
      obtain ⟨v8, e8⟩ := val (f t8) g8
      obtain ⟨v10, e10⟩ := val (f t10) g10
      obtain ⟨v11, e11⟩ := val (f t11) g11
      exact hno v1 t2 v3 t4 v5 v6 t7 v8 t9 v10 v11 (by simp [e1]) rfl (by simp [e3])
        rfl (by simp [e5]) (by simp [e6]) rfl (by simp [e8]) rfl
        (by simp [e10]) (by simp [e11])

/-- C17: `load_links` fails (a) when the input is one or more three-token lines
and then ends, with no terminal line, and (b) when, after any number of
three-token lines, the next line has neither three columns nor one; it succeeds
on every input of `k >= 0` numeric three-token lines followed by a numeric
single-token line, leaving the reader after that line.  A line is a body free
of line terminators followed by its terminator. -/
theorem load_links_fails_or_succeeds (f : String → Option Int64) (c : Chain) :
    (∀ lines : List (List Char), lines ≠ [] →
      (∀ l ∈ lines, '\n' ∉ l ∧ (lineCols (lineText l)).length = 3) →
      Chain.load_links f c (linesText lines) = none) ∧
    (∀ (lines : List (List Char)) (bad : List Char) (rest : Reader),
      (∀ l ∈ lines, '\n' ∉ l ∧ (lineCols (lineText l)).length = 3) →
      '\n' ∉ bad → (lineCols (lineText bad)).length ≠ 3 → (lineCols (lineText bad)).length ≠ 1 →
      Chain.load_links f c (linesText lines ++ (lineText bad ++ rest)) = none) ∧
    (∀ (lines : List (List Char)) (bs : List (Int64 × Int64 × Int64)) (tbody : List Char) (size : Int64)
        (rest : Reader),
      lines.map (parseBlock f) = bs.map some → parseTerminal f tbody = some size →
      ∃ c', Chain.load_links f c (linesText lines ++ (lineText tbody ++ rest))
        = some (c', rest)) := by
  refine ⟨?_, ?_, ?_⟩
  · intro lines hne hall
    apply load_links_none_of_readThenLoop
    intro st h
    have h' : readThenLoop f c (decide (c.tStrand ≠ c.qStrand))
        ((ReadString (linesText lines) '\n').2.length + 1) c.tStart c.qFrom0 c.links
        (linesText lines ++ []) = some st := by
      rw [List.append_nil]; exact h
    exact readThenLoop_not_terminal f c _ lines hall _ _ _ _ [] (Or.inl ⟨rfl, hne⟩) st h'
  · intro lines bad rest hall hn h3 h1
    apply load_links_none_of_readThenLoop
    intro st h
    exact readThenLoop_not_terminal f c _ lines hall _ _ _ _ (lineText bad ++ rest)
      (Or.inr ⟨bad, rest, rfl, hn, h3, h1⟩) st h
  · intro lines bs tbody size rest hlines hterm
    exact ⟨_, load_links_lines_ok f c lines bs tbody size rest hlines hterm⟩

theorem load_links_fails_or_succeeds_witness :
    Chain.load_links str2int64 chainPlus "100\t10\t5\n".data = none ∧
    Chain.load_links str2int64 chainPlus "100\t10\t5\n90\t1\n90\n".data = none ∧
    ∃ c', Chain.load_links str2int64 chainPlus "100\t10\t5\n90\n".data = some (c', []) :=
  ⟨(load_links_fails_or_succeeds str2int64 chainPlus).1 ["100\t10\t5".data] (by decide)
      (by decide),
    (load_links_fails_or_succeeds str2int64 chainPlus).2.1 ["100\t10\t5".data] "90\t1".data
      "90\n".data (by decide) (by decide) (by decide) (by decide),
    (load_links_fails_or_succeeds str2int64 chainPlus).2.2 ["100\t10\t5".data] [(100, 10, 5)]
      "90".data 90 [] (by decide) (by decide)⟩

/-- C18: for every chain, inverted or not, the link that `load_links` appends at
position `i` has the reference interval `[t_i, t_i + size_i)` on the contig
`tName`, with `t_i = tStart + sum over j < i of (size_j + dt_j)`; the first
`reference.Start` is `tStart`, `links[i+1].reference.Start ==
links[i].reference.End + links[i].dt`, and the last `reference.End` is `tStart`
plus the sum of all sizes plus the sum of all `dt`. -/
theorem load_links_reference_walk (f : String → Option Int64) (c c' : Chain) (r r' : Reader)
    (hl : Chain.load_links f c r = some (c', r')) :
    (∀ (i : Nat) (link : ChainLink), (appended c c')[i]? = some link →
      link.reference.Contig = c.tName ∧
      link.reference.Start
        = c.tStart + (((appended c c').take i).map fun l => l.size + l.dt).sum ∧
      link.reference.End = link.reference.Start + link.size) ∧
    (∃ first, (appended c c')[0]? = some first ∧ first.reference.Start = c.tStart) ∧
    (∀ (i : Nat) (a b : ChainLink), (appended c c')[i]? = some a →
      (appended c c')[i + 1]? = some b → b.reference.Start = a.reference.End + a.dt) ∧
    (∃ last, (appended c c').getLast? = some last ∧
      last.reference.End = c.tStart + ((appended c c').map fun l => l.size).sum
        + ((appended c c').map fun l => l.dt).sum) := by
  obtain ⟨bs, x, hc'⟩ := load_links_walk f c c' r r' hl
  rw [appended_eq c c' _ hc']
  refine ⟨?_, ?_, ?_, ?_⟩
  · intro i link hi
    obtain ⟨b, hb⟩ := walk_getElem? c _ _ _ _ i link hi
    rw [hb]
    simp [blockLink]
  · cases bs with
    | nil =>
      exact ⟨blockLink c (decide (c.tStrand ≠ c.qStrand)) c.tStart c.qFrom0 (x, 0, 0), rfl, rfl⟩
    | cons b bs =>
      exact ⟨blockLink c (decide (c.tStrand ≠ c.qStrand)) c.tStart c.qFrom0 b,
        by simp [walk], rfl⟩
  · intro i a b ha hb
    obtain ⟨t', q', x, y, rfl, rfl⟩ := walk_consecutive c _ _ _ _ i a b ha hb
    simp [blockLink, add_assoc]
  · obtain ⟨last, g1, g2, g3, _⟩ :=
      walk_reference_span c (decide (c.tStrand ≠ c.qStrand)) bs (x, 0, 0) c.tStart c.qFrom0
    refine ⟨last, g1, ?_⟩
    rw [g2, g3]; simp

theorem load_links_reference_walk_witness :
    Chain.load_links str2int64 chainMinus "100\t10\t5\n90\n".data
      = some ({ chainMinus with links := [linkMinus1, linkMinus2] }, []) ∧
    (appended chainMinus { chainMinus with links := [linkMinus1, linkMinus2] })[1]?
      = some linkMinus2 ∧
    linkMinus2.reference = { Contig := "chr1", Start := 610, End := 700, Inverted := true } ∧
    linkMinus2.reference.Start = 500 + (100 + 10) :=
  ⟨by decide, by decide, by decide,
    ((load_links_reference_walk str2int64 chainMinus
      { chainMinus with links := [linkMinus1, linkMinus2] } "100\t10\t5\n90\n".data []
      (by decide)).1 1 linkMinus2 (by decide)).2.1.trans (by decide)⟩

/-- C19: for intervals `a`, `b` with `Start <= End`, `a.OverlapsAtDimension(b, dim)`
equals the closed-interval test `a.Start <= b.End && b.Start <= a.End` for every
`dim`; so the test is symmetric, and `ChainLink.OverlapsAtDimension` gives the
answer of the link's reference interval. -/
theorem OverlapsAtDimension_closed (a b : ChainInterval) (dim : Nat)
    (ha : a.Start ≤ a.End) (hb : b.Start ≤ b.End) :
    a.OverlapsAtDimension b.toInterval dim = decide (a.Start ≤ b.End ∧ b.Start ≤ a.End) ∧
    a.OverlapsAtDimension b.toInterval dim = b.OverlapsAtDimension a.toInterval dim ∧
    ∀ (link : ChainLink) (iv : Interval),
      link.OverlapsAtDimension iv dim = link.reference.OverlapsAtDimension iv dim := by
  have key : ∀ x y : ChainInterval, x.Start ≤ x.End → y.Start ≤ y.End →
      x.OverlapsAtDimension y.toInterval dim = decide (x.Start ≤ y.End ∧ y.Start ≤ x.End) := by
    intro x y hx hy
    unfold ChainInterval.OverlapsAtDimension
    simp only [ChainInterval.toInterval, ChainInterval.LowAtDimension,
      ChainInterval.HighAtDimension]
    simp only [Int64.le_def] at hx hy ⊢
    by_cases h : x.Start.val ≤ y.End.val ∧ y.Start.val ≤ x.End.val
    · rw [decide_eq_true h]
      split
      · rfl
      · split
        · rfl
        · split
          · rfl
          · omega
    · rw [decide_eq_false h]
      split
      · omega
      · split
        · omega
        · split
          · omega
          · rfl
  refine ⟨key a b ha hb, ?_, fun _ _ => rfl⟩
  rw [key a b ha hb, key b a hb ha]
  congr 1
  exact propext ⟨fun h => ⟨h.2, h.1⟩, fun h => ⟨h.2, h.1⟩⟩

theorem OverlapsAtDimension_closed_witness :
    linkPlus.reference.Start ≤ linkPlus.reference.End ∧
    regionInside.Start ≤ regionInside.End ∧
    linkPlus.reference.OverlapsAtDimension regionInside.toInterval 0 = true ∧
    regionInside.OverlapsAtDimension linkPlus.reference.toInterval 0 = true :=
  ⟨by decide, by decide,
    (OverlapsAtDimension_closed linkPlus.reference regionInside 0 (by decide)
      (by decide)).1.trans (by decide),
    ((OverlapsAtDimension_closed linkPlus.reference regionInside 0 (by decide)
      (by decide)).2.1.symm).trans (by decide)⟩

/-- C20, refuted as stated: (a) the region `chr1:650-550` (start after end)
satisfies `region.Start < link.reference.End` and
`link.reference.Start < region.End` for the block `chr1:500-700 <-> chr2:300-500`,
and `GetOverlap` returns `chr2:450-350`, whose start is after its end; (b) for
`tStart = 0`, `qStart = 9223372036854775800` and the block line `10`, `load_links`
builds a link whose query end has wrapped around, with `query.size() ==
reference.size() == 10`, and for the region `chr1:0-10` `GetOverlap` returns that
query, whose start is after its end. -/
theorem GetOverlap_not_inside :
    (linkPlus.reference.size = linkPlus.query.size ∧
      (650 : Int64) < linkPlus.reference.End ∧ linkPlus.reference.Start < (550 : Int64) ∧
      linkPlus.GetOverlap { Contig := "chr1", Start := 650, End := 550, Inverted := false }
        = some { Contig := "chr2", Start := 450, End := 350, Inverted := false } ∧
      ¬ ((450 : Int64) ≤ 350)) ∧
    (Chain.load_links str2int64 chainHighQ "10\n".data
        = some ({ chainHighQ with links := [linkHighQ] }, []) ∧
      linkHighQ.reference.size = 10 ∧ linkHighQ.query.size = 10 ∧
      (0 : Int64) < linkHighQ.reference.End ∧ linkHighQ.reference.Start < (10 : Int64) ∧
      linkHighQ.GetOverlap { Contig := "chr1", Start := 0, End := 10, Inverted := false }
        = some linkHighQ.query ∧
      ¬ linkHighQ.query.Start ≤ linkHighQ.query.End) := by
  decide

/-- C20, amended: for a link with `reference.size() == query.size()` and
`query.Start <= query.End`, and a region on the reference contig with
`Start <= End` that overlaps the block (`region.Start < link.reference.End` and
`link.reference.Start < region.End`), the interval returned by `GetOverlap` lies
inside `link.query` and its size is that of the intersection,
`min(link.reference.End, region.End) - max(link.reference.Start, region.Start)`. -/
theorem GetOverlap_inside (link : ChainLink) (region : ChainInterval)
    (hsize : link.reference.size = link.query.size)
    (hc : region.Contig = link.reference.Contig)
    (hq : link.query.Start ≤ link.query.End)
    (hr : region.Start ≤ region.End)
    (h1 : region.Start < link.reference.End)
    (h2 : link.reference.Start < region.End) :
    ∃ res, link.GetOverlap region = some res ∧
      link.query.Start ≤ res.Start ∧ res.Start ≤ res.End ∧ res.End ≤ link.query.End ∧
      res.size = min link.reference.End region.End - max link.reference.Start region.Start := by
  refine ⟨_, GetOverlap_some link region hc, ?_⟩
  have r1 := link.reference.Start.inRange
  have r2 := link.reference.End.inRange
  have r3 := link.query.Start.inRange
  have r4 := link.query.End.inRange
  have r5 := region.Start.inRange
  have r6 := region.End.inRange
  have hsz := (Int64.eq_iff _ _).mp hsize
  simp only [ChainInterval.size, Int64.val_sub, wrap64] at hsz
  simp only [Int64.le_def, Int64.lt_def] at hq hr h1 h2
  simp only [ChainInterval.size, Int64.min_def, Int64.max_def, gt_iff_lt]
  refine ⟨?_, ?_, ?_, ?_⟩
  · split <;>
      simp only [Int64.le_def, Int64.lt_def, Int64.val_add, Int64.val_sub, Int64.val_zero,
        wrap64] at * <;> omega
  · split <;> split <;>
      simp only [Int64.le_def, Int64.lt_def, Int64.val_add, Int64.val_sub, Int64.val_zero,
        wrap64] at * <;> omega
  · split <;>
      simp only [Int64.le_def, Int64.lt_def, Int64.val_add, Int64.val_sub, Int64.val_zero,
        wrap64] at * <;> omega
  · apply Int64.ext
    split <;> split <;> split <;> split <;>
      simp only [Int64.le_def, Int64.lt_def, Int64.val_add, Int64.val_sub, Int64.val_zero,
        wrap64] at * <;> omega

theorem GetOverlap_inside_witness :
    linkPlus.reference.size = linkPlus.query.size ∧
    regionInside.Contig = linkPlus.reference.Contig ∧
    linkPlus.query.Start ≤ linkPlus.query.End ∧
    regionInside.Start ≤ regionInside.End ∧
    regionInside.Start < linkPlus.reference.End ∧
    linkPlus.reference.Start < regionInside.End ∧
    ∃ res, linkPlus.GetOverlap regionInside = some res ∧
      linkPlus.query.Start ≤ res.Start ∧ res.Start ≤ res.End ∧ res.End ≤ linkPlus.query.End ∧
      res.size = min linkPlus.reference.End regionInside.End
        - max linkPlus.reference.Start regionInside.Start :=
  ⟨by decide, by decide, by decide, by decide, by decide, by decide,
    GetOverlap_inside linkPlus regionInside (by decide) (by decide) (by decide) (by decide)
      (by decide) (by decide)⟩

end GLO
